import Mathlib

/-!
Verification development for the schema-infer library
(`src/schema_infer/core.py`).

The Python module is shallowly embedded: Python runtime values become the
inductive type `Value`, schema dataclasses become the inductive `Schema`,
Python dicts and sets become association lists and lists (a dict is observed
by the module only through lookup, membership, equality and the sorted
rendering in its repr, so dicts are represented canonically as sorted
association lists; sets as sorted duplicate-free lists).  Python strings are
compared by code points, which matches the character-list order defined
below.  All definitions are executable and, except for the recursive
coercion engine, compiled by structural recursion so that concrete runs
reduce inside the kernel.
-/

namespace SchemaInfer

/-! ### String primitives (models of the Python str operations used) -/

/-- Whitespace test used by the strip operation (space and the ASCII control
whitespace characters). -/
def isPySpace (c : Char) : Bool :=
  c.toNat = 32 || (9 ≤ c.toNat && c.toNat ≤ 13)

/-- ASCII digit test, the model of the per-character digit test. -/
def isPyDigit (c : Char) : Bool :=
  48 ≤ c.toNat && c.toNat ≤ 57

/-- Lower-casing of one ASCII character. -/
def charLower (c : Char) : Char :=
  if 65 ≤ c.toNat && c.toNat ≤ 90 then Char.ofNat (c.toNat + 32) else c

/-- Model of the Python strip method: remove leading and trailing
whitespace. -/
def pyStrip (s : String) : String :=
  ⟨((s.data.dropWhile isPySpace).reverse.dropWhile isPySpace).reverse⟩

/-- Model of the Python lower method. -/
def pyLower (s : String) : String :=
  ⟨s.data.map charLower⟩

/-- Model of the Python isdigit method: nonempty and all digits. -/
def pyIsDigit (s : String) : Bool :=
  !s.data.isEmpty && s.data.all isPyDigit

/-- Model of testing whether a string starts with a minus sign. -/
def startsWithDash (s : String) : Bool :=
  match s.data with
  | c :: _ => c = '-'
  | [] => false

/-- Model of dropping the first character of a string. -/
def dropFirst (s : String) : String :=
  ⟨s.data.tail⟩

/-- Digits to a natural number, the core of the model of int parsing. -/
def digitsToNat (l : List Char) : Nat :=
  l.foldl (fun acc c => acc * 10 + (c.toNat - 48)) 0

/-- Model of int parsing on strings that passed the digit test of
`IntSchema.coerce` (an optionally minus-prefixed digit run). -/
def parsePyInt (s : String) : Int :=
  match s.data with
  | '-' :: rest => -(digitsToNat rest : Int)
  | l => (digitsToNat l : Int)

/-- Lexicographic order on character lists by code point, the model of the
Python string order used by sorting. -/
def lexLt : List Char → List Char → Bool
  | _, [] => false
  | [], _ :: _ => true
  | a :: as, b :: bs =>
    a.toNat < b.toNat || (a.toNat = b.toNat && lexLt as bs)

/-- Strict string order by code points. -/
def strLt (a b : String) : Bool := lexLt a.data b.data

/-- Reflexive string order by code points. -/
def strLe (a b : String) : Bool := !strLt b a

theorem char_toNat_inj {a b : Char} (h : a.toNat = b.toNat) : a = b := by
  cases a with
  | mk va ha =>
    cases b with
    | mk vb hb =>
      have : va = vb := by
        apply UInt32.ext_iff.mpr
        simpa [Char.toNat] using h
      subst this
      rfl

theorem lexLt_irrefl : ∀ l : List Char, lexLt l l = false := by
  intro l
  induction l with
  | nil => rfl
  | cons a as ih => simp [lexLt, ih]

theorem lexLt_asymm : ∀ {l₁ l₂ : List Char},
    lexLt l₁ l₂ = true → lexLt l₂ l₁ = false := by
  intro l₁
  induction l₁ with
  | nil =>
    intro l₂ h
    cases l₂ with
    | nil => simp [lexLt] at h
    | cons b bs => simp [lexLt]
  | cons a as ih =>
    intro l₂ h
    cases l₂ with
    | nil => simp [lexLt] at h
    | cons b bs =>
      rw [Bool.eq_false_iff]
      intro hc
      simp only [lexLt, Bool.or_eq_true, Bool.and_eq_true, decide_eq_true_eq] at h hc
      rcases h with h | ⟨he, hr⟩ <;> rcases hc with hc | ⟨hce, hcr⟩
      · omega
      · omega
      · omega
      · have := ih hr
        rw [hcr] at this
        cases this

theorem lexLt_trichot : ∀ l₁ l₂ : List Char,
    lexLt l₁ l₂ = true ∨ l₁ = l₂ ∨ lexLt l₂ l₁ = true := by
  intro l₁
  induction l₁ with
  | nil =>
    intro l₂
    cases l₂ with
    | nil => exact Or.inr (Or.inl rfl)
    | cons b bs => exact Or.inl (by simp [lexLt])
  | cons a as ih =>
    intro l₂
    cases l₂ with
    | nil => exact Or.inr (Or.inr (by simp [lexLt]))
    | cons b bs =>
      rcases Nat.lt_trichotomy a.toNat b.toNat with h | h | h
      · exact Or.inl (by simp [lexLt, h])
      · rcases ih bs with h2 | h2 | h2
        · exact Or.inl (by simp [lexLt, h, h2])
        · exact Or.inr (Or.inl (by rw [char_toNat_inj h, h2]))
        · exact Or.inr (Or.inr (by simp [lexLt, h.symm, h2]))
      · exact Or.inr (Or.inr (by simp [lexLt, h]))

theorem lexLt_trans : ∀ {l₁ l₂ l₃ : List Char},
    lexLt l₁ l₂ = true → lexLt l₂ l₃ = true → lexLt l₁ l₃ = true := by
  intro l₁
  induction l₁ with
  | nil =>
    intro l₂ l₃ h₁ h₂
    cases l₂ with
    | nil => simp [lexLt] at h₁
    | cons b bs =>
      cases l₃ with
      | nil => simp [lexLt] at h₂
      | cons c cs => simp [lexLt]
  | cons a as ih =>
    intro l₂ l₃ h₁ h₂
    cases l₂ with
    | nil => simp [lexLt] at h₁
    | cons b bs =>
      cases l₃ with
      | nil => simp [lexLt] at h₂
      | cons c cs =>
        simp only [lexLt, Bool.or_eq_true, Bool.and_eq_true, decide_eq_true_eq] at h₁ h₂ ⊢
        rcases h₁ with h₁ | ⟨he₁, hr₁⟩
        · rcases h₂ with h₂ | ⟨he₂, hr₂⟩
          · exact Or.inl (by omega)
          · exact Or.inl (by omega)
        · rcases h₂ with h₂ | ⟨he₂, hr₂⟩
          · exact Or.inl (by omega)
          · exact Or.inr ⟨by omega, ih hr₁ hr₂⟩

theorem string_ext {a b : String} (h : a.data = b.data) : a = b := by
  cases a
  cases b
  exact congrArg String.mk h

theorem strLt_irrefl (a : String) : strLt a a = false := lexLt_irrefl a.data

theorem strLt_asymm {a b : String} (h : strLt a b = true) : strLt b a = false :=
  lexLt_asymm h

theorem strLt_trans {a b c : String} (h₁ : strLt a b = true)
    (h₂ : strLt b c = true) : strLt a c = true := lexLt_trans h₁ h₂

theorem strLt_trichot (a b : String) :
    strLt a b = true ∨ a = b ∨ strLt b a = true := by
  rcases lexLt_trichot a.data b.data with h | h | h
  · exact Or.inl h
  · exact Or.inr (Or.inl (string_ext h))
  · exact Or.inr (Or.inr h)

theorem strLt_ne {a b : String} (h : strLt a b = true) : a ≠ b := by
  intro hab
  subst hab
  rw [strLt_irrefl] at h
  cases h

theorem strLe_total (a b : String) : strLe a b = true ∨ strLe b a = true := by
  rcases strLt_trichot a b with h | h | h
  · exact Or.inl (by simp [strLe, strLt_asymm h])
  · subst h
    exact Or.inl (by simp [strLe, strLt_irrefl])
  · exact Or.inr (by simp [strLe, strLt_asymm h])

theorem strLe_of_strLt {a b : String} (h : strLt a b = true) : strLe a b = true := by
  simp [strLe, strLt_asymm h]

theorem strLe_refl (a : String) : strLe a a = true := by
  simp [strLe, strLt_irrefl]

theorem strLt_of_strLe_ne {a b : String} (h : strLe a b = true) (hne : a ≠ b) :
    strLt a b = true := by
  rcases strLt_trichot a b with h' | h' | h'
  · exact h'
  · exact absurd h' hne
  · simp [strLe, h'] at h

/-! ### Sorted duplicate-free string lists (the model of a Python set of
strings) -/

/-- Insert into a strictly sorted string list, keeping it sorted and
duplicate-free. -/
def sinsert (x : String) : List String → List String
  | [] => [x]
  | y :: ys =>
    if strLt x y then x :: y :: ys
    else if x = y then y :: ys
    else y :: sinsert x ys

/-- Canonical form of a finite set of strings: sorted, duplicate-free. -/
def sortDedup (l : List String) : List String := l.foldr sinsert []

/-- The strict pairwise order predicate on string lists. -/
def StrSorted (l : List String) : Prop :=
  l.Pairwise (fun a b => strLt a b = true)

theorem mem_sinsert (a x : String) : ∀ l : List String,
    (a ∈ sinsert x l ↔ a = x ∨ a ∈ l) := by
  intro l
  induction l with
  | nil => simp [sinsert]
  | cons y ys ih =>
    simp only [sinsert]
    split
    · simp
    · split
      · rename_i hxy
        subst hxy
        simp only [List.mem_cons]
        tauto
      · simp only [List.mem_cons, ih]
        tauto

theorem sorted_sinsert {x : String} : ∀ {l : List String},
    StrSorted l → StrSorted (sinsert x l) := by
  intro l
  induction l with
  | nil =>
    intro _
    simp [sinsert, StrSorted]
  | cons y ys ih =>
    intro h
    rcases List.pairwise_cons.mp h with ⟨hy, hys⟩
    simp only [sinsert]
    split
    · rename_i hxy
      refine List.pairwise_cons.mpr ⟨?_, h⟩
      intro b hb
      rcases List.mem_cons.mp hb with rfl | hb
      · exact hxy
      · exact strLt_trans hxy (hy b hb)
    · split
      · exact h
      · rename_i hxy hne
        have hyx : strLt y x = true := by
          rcases strLt_trichot x y with h' | h' | h'
          · exact absurd h' hxy
          · exact absurd h' hne
          · exact h'
        refine List.pairwise_cons.mpr ⟨?_, ih hys⟩
        intro b hb
        rcases (mem_sinsert b x ys).mp hb with rfl | hb
        · exact hyx
        · exact hy b hb

theorem sorted_sortDedup (l : List String) : StrSorted (sortDedup l) := by
  induction l with
  | nil => simp [sortDedup, StrSorted]
  | cons x xs ih => exact sorted_sinsert ih

theorem mem_sortDedup (a : String) : ∀ l : List String,
    (a ∈ sortDedup l ↔ a ∈ l) := by
  intro l
  induction l with
  | nil => simp [sortDedup]
  | cons x xs ih =>
    show a ∈ sinsert x (sortDedup xs) ↔ _
    rw [mem_sinsert]
    simp [ih]

theorem strSorted_eq_of_mem : ∀ {l₁ l₂ : List String},
    StrSorted l₁ → StrSorted l₂ → (∀ a, a ∈ l₁ ↔ a ∈ l₂) → l₁ = l₂ := by
  intro l₁
  induction l₁ with
  | nil =>
    intro l₂ _ _ hm
    cases l₂ with
    | nil => rfl
    | cons b bs => exact absurd ((hm b).mpr (by simp)) (by simp)
  | cons a as ih =>
    intro l₂ h₁ h₂ hm
    cases l₂ with
    | nil => exact absurd ((hm a).mp (by simp)) (by simp)
    | cons b bs =>
      rcases List.pairwise_cons.mp h₁ with ⟨ha, has⟩
      rcases List.pairwise_cons.mp h₂ with ⟨hb, hbs⟩
      have hab : a = b := by
        rcases List.mem_cons.mp ((hm a).mp (by simp)) with h | h
        · exact h
        · rcases List.mem_cons.mp ((hm b).mpr (by simp)) with h' | h'
          · exact h'.symm
          · have h1 := ha b h'
            have h2 := hb a h
            rw [strLt_asymm h1] at h2
            cases h2
      subst hab
      have : as = bs := by
        apply ih has hbs
        intro c
        constructor
        · intro hc
          rcases List.mem_cons.mp ((hm c).mp (List.mem_cons_of_mem _ hc)) with rfl | h
          · exact absurd (ha c hc) (by simp [strLt_irrefl])
          · exact h
        · intro hc
          rcases List.mem_cons.mp ((hm c).mpr (List.mem_cons_of_mem _ hc)) with rfl | h
          · exact absurd (hb c hc) (by simp [strLt_irrefl])
          · exact h
      rw [this]

theorem sortDedup_of_sorted {l : List String} (h : StrSorted l) :
    sortDedup l = l :=
  strSorted_eq_of_mem (sorted_sortDedup l) h (fun a => mem_sortDedup a l)

theorem sortDedup_eq_of_mem {l₁ l₂ : List String}
    (h : ∀ a, a ∈ l₁ ↔ a ∈ l₂) : sortDedup l₁ = sortDedup l₂ :=
  strSorted_eq_of_mem (sorted_sortDedup l₁) (sorted_sortDedup l₂)
    (fun a => by rw [mem_sortDedup, mem_sortDedup]; exact h a)

/-! ### Generic insertion sort (the model of the Python sorted builtin) -/

/-- Insert with respect to a boolean comparison. -/
def insertBy {α : Type} (le : α → α → Bool) (x : α) : List α → List α
  | [] => [x]
  | y :: ys => if le x y then x :: y :: ys else y :: insertBy le x ys

/-- Insertion sort with respect to a boolean comparison. -/
def sortBy {α : Type} (le : α → α → Bool) (l : List α) : List α :=
  l.foldr (insertBy le) []

theorem insertBy_perm {α : Type} (le : α → α → Bool) (x : α) :
    ∀ l : List α, (insertBy le x l).Perm (x :: l) := by
  intro l
  induction l with
  | nil => simp [insertBy]
  | cons y ys ih =>
    simp only [insertBy]
    split
    · exact List.Perm.refl _
    · exact (ih.cons y).trans (List.Perm.swap x y ys)

theorem sortBy_perm {α : Type} (le : α → α → Bool) :
    ∀ l : List α, (sortBy le l).Perm l := by
  intro l
  induction l with
  | nil => simp [sortBy]
  | cons x xs ih =>
    exact (insertBy_perm le x (sortBy le xs)).trans (ih.cons x)

theorem mem_sortBy {α : Type} (le : α → α → Bool) (l : List α) (a : α) :
    a ∈ sortBy le l ↔ a ∈ l :=
  (sortBy_perm le l).mem_iff

theorem insertBy_map {α β : Type} (le : β → β → Bool) (f : α → β) (x : α) :
    ∀ l : List α,
      (insertBy (fun p q => le (f p) (f q)) x l).map f
        = insertBy le (f x) (l.map f) := by
  intro l
  induction l with
  | nil => simp [insertBy]
  | cons y ys ih =>
    simp only [insertBy, List.map_cons]
    split
    · simp
    · simp [ih]

theorem sortBy_map {α β : Type} (le : β → β → Bool) (f : α → β) :
    ∀ l : List α,
      (sortBy (fun p q => le (f p) (f q)) l).map f = sortBy le (l.map f) := by
  intro l
  induction l with
  | nil => simp [sortBy]
  | cons x xs ih =>
    show (insertBy _ x (sortBy _ xs)).map f
      = insertBy le (f x) ((xs.map f).foldr (insertBy le) [])
    rw [insertBy_map, ih]
    rfl

theorem pairwise_insertBy {α : Type} {le : α → α → Bool}
    (htot : ∀ a b, le a b = true ∨ le b a = true)
    (htrans : ∀ a b c, le a b = true → le b c = true → le a c = true) (x : α) :
    ∀ {l : List α}, l.Pairwise (fun a b => le a b = true) →
      (insertBy le x l).Pairwise (fun a b => le a b = true) := by
  intro l
  induction l with
  | nil =>
    intro _
    simp [insertBy]
  | cons y ys ih =>
    intro h
    rcases List.pairwise_cons.mp h with ⟨hy, hys⟩
    simp only [insertBy]
    split
    · rename_i hxy
      refine List.pairwise_cons.mpr ⟨?_, h⟩
      intro b hb
      rcases List.mem_cons.mp hb with rfl | hb
      · exact hxy
      · exact htrans x y b hxy (hy b hb)
    · rename_i hxy
      refine List.pairwise_cons.mpr ⟨?_, ih hys⟩
      intro b hb
      rcases (insertBy_perm le x ys).mem_iff.mp hb with h'
      rcases List.mem_cons.mp h' with rfl | hb'
      · rcases htot y b with h'' | h''
        · exact h''
        · exact absurd h'' hxy
      · exact hy b hb'

theorem pairwise_sortBy {α : Type} {le : α → α → Bool}
    (htot : ∀ a b, le a b = true ∨ le b a = true)
    (htrans : ∀ a b c, le a b = true → le b c = true → le a c = true)
    (l : List α) :
    (sortBy le l).Pairwise (fun a b => le a b = true) := by
  induction l with
  | nil => simp [sortBy]
  | cons x xs ih => exact pairwise_insertBy htot htrans x ih

/-! ### Boolean chain predicates (decidable forms of sortedness) -/

/-- Strictly increasing adjacent chain on string lists. -/
def chainLtB : List String → Bool
  | [] => true
  | [_] => true
  | a :: b :: rest => strLt a b && chainLtB (b :: rest)

/-- Weakly increasing adjacent chain on string lists. -/
def chainLeB : List String → Bool
  | [] => true
  | [_] => true
  | a :: b :: rest => strLe a b && chainLeB (b :: rest)

/-- All entries pairwise distinct. -/
def allDistinct : List String → Bool
  | [] => true
  | x :: xs => !(xs.contains x) && allDistinct xs

theorem chainLtB_iff : ∀ l : List String, chainLtB l = true ↔ StrSorted l := by
  intro l
  induction l with
  | nil => simp [chainLtB, StrSorted]
  | cons a as ih =>
    cases as with
    | nil => simp [chainLtB, StrSorted]
    | cons b bs =>
      rw [StrSorted, List.pairwise_cons]
      constructor
      · intro h
        simp only [chainLtB, Bool.and_eq_true] at h
        have htail := ih.mp h.2
        refine ⟨?_, htail⟩
        intro c hc
        rcases List.mem_cons.mp hc with rfl | hc
        · exact h.1
        · rcases List.pairwise_cons.mp htail with ⟨hb, _⟩
          exact strLt_trans h.1 (hb c hc)
      · intro ⟨ha, htail⟩
        simp only [chainLtB, Bool.and_eq_true]
        exact ⟨ha b (by simp), ih.mpr htail⟩

theorem chainLtB_cons {a : String} {l : List String}
    (h : chainLtB (a :: l) = true) : chainLtB l = true := by
  cases l with
  | nil => rfl
  | cons b bs =>
    simp only [chainLtB, Bool.and_eq_true] at h
    exact h.2

/-! ### The schema data model -/

/-- The three array kinds recorded by `ArraySchema.kind` (the strings
"list", "tuple", "set" in the Python source). -/
inductive AKind where
  | list
  | tuple
  | set
deriving DecidableEq

/-- The capitalized kind string used by `ArraySchema.__repr__`
(`self.kind.capitalize()`). -/
def AKind.capStr : AKind → String
  | .list => "List"
  | .tuple => "Tuple"
  | .set => "Set"

/-- The closed schema variant type of `core.py`: `NullSchema`, `BoolSchema`,
`IntSchema`, `FloatSchema`, `StringSchema`, `BytesSchema`, `DateSchema`,
`DateTimeSchema`, `ArraySchema`, `MapSchema`, `ObjectSchema`, `UnionSchema`.
`ObjectSchema.properties` is a Python dict with string keys, modelled as an
association list (canonically sorted by key); `ObjectSchema.optional` is a
Python set of strings, modelled as a canonically sorted duplicate-free
list. -/
inductive Schema where
  | null
  | bool
  | int
  | float
  | string
  | bytes
  | date
  | datetime
  | array (items : Schema) (kind : AKind)
  | map (key value : Schema)
  | object (properties : List (String × Schema)) (optional : List String)
  | union (variants : List Schema)

mutual
/-- Structural equality of schemas, the model of the Python dataclass
equality (dict and set payloads compare by content; on the canonical
representation used here that is list equality). -/
def Schema.beq : Schema → Schema → Bool
  | .null, .null => true
  | .bool, .bool => true
  | .int, .int => true
  | .float, .float => true
  | .string, .string => true
  | .bytes, .bytes => true
  | .date, .date => true
  | .datetime, .datetime => true
  | .array i k, .array i' k' => Schema.beq i i' && k == k'
  | .map k v, .map k' v' => Schema.beq k k' && Schema.beq v v'
  | .object ps os, .object ps' os' => beqP ps ps' && os == os'
  | .union vs, .union vs' => beqL vs vs'
  | _, _ => false

def beqL : List Schema → List Schema → Bool
  | [], [] => true
  | a :: as, b :: bs => Schema.beq a b && beqL as bs
  | _, _ => false

def beqP : List (String × Schema) → List (String × Schema) → Bool
  | [], [] => true
  | (k, v) :: as, (k', v') :: bs => k == k' && Schema.beq v v' && beqP as bs
  | _, _ => false
end

mutual
theorem Schema.beq_refl : ∀ a : Schema, Schema.beq a a = true
  | .null => rfl
  | .bool => rfl
  | .int => rfl
  | .float => rfl
  | .string => rfl
  | .bytes => rfl
  | .date => rfl
  | .datetime => rfl
  | .array i _ => by simp [Schema.beq, Schema.beq_refl i]
  | .map k v => by simp [Schema.beq, Schema.beq_refl k, Schema.beq_refl v]
  | .object ps _ => by simp [Schema.beq, beqP_refl ps]
  | .union vs => by simp [Schema.beq, beqL_refl vs]

theorem beqL_refl : ∀ l : List Schema, beqL l l = true
  | [] => rfl
  | a :: as => by simp [beqL, Schema.beq_refl a, beqL_refl as]

theorem beqP_refl : ∀ l : List (String × Schema), beqP l l = true
  | [] => rfl
  | (k, v) :: as => by simp [beqP, Schema.beq_refl v, beqP_refl as]
end

mutual
theorem Schema.beq_eq : ∀ a b : Schema, Schema.beq a b = true → a = b
  | .null, .null, _ => rfl
  | .bool, .bool, _ => rfl
  | .int, .int, _ => rfl
  | .float, .float, _ => rfl
  | .string, .string, _ => rfl
  | .bytes, .bytes, _ => rfl
  | .date, .date, _ => rfl
  | .datetime, .datetime, _ => rfl
  | .array i k, .array i' k', h => by
    simp only [Schema.beq, Bool.and_eq_true, beq_iff_eq] at h
    rw [Schema.beq_eq i i' h.1, h.2]
  | .map k v, .map k' v', h => by
    simp only [Schema.beq, Bool.and_eq_true] at h
    rw [Schema.beq_eq k k' h.1, Schema.beq_eq v v' h.2]
  | .object ps os, .object ps' os', h => by
    simp only [Schema.beq, Bool.and_eq_true, beq_iff_eq] at h
    rw [beqP_eq ps ps' h.1, h.2]
  | .union vs, .union vs', h => by
    rw [beqL_eq vs vs' h]

theorem beqL_eq : ∀ l₁ l₂ : List Schema, beqL l₁ l₂ = true → l₁ = l₂
  | [], [], _ => rfl
  | a :: as, b :: bs, h => by
    simp only [beqL, Bool.and_eq_true] at h
    rw [Schema.beq_eq a b h.1, beqL_eq as bs h.2]

theorem beqP_eq : ∀ l₁ l₂ : List (String × Schema), beqP l₁ l₂ = true → l₁ = l₂
  | [], [], _ => rfl
  | (k, v) :: as, (k', v') :: bs, h => by
    simp only [beqP, Bool.and_eq_true, beq_iff_eq] at h
    rw [h.1.1, Schema.beq_eq v v' h.1.2, beqP_eq as bs h.2]
end

theorem Schema.beq_iff {a b : Schema} : Schema.beq a b = true ↔ a = b :=
  ⟨Schema.beq_eq a b, fun h => h ▸ Schema.beq_refl a⟩

instance : DecidableEq Schema := fun a b =>
  decidable_of_iff (Schema.beq a b = true) Schema.beq_iff

instance : BEq Schema := ⟨Schema.beq⟩

/-! ### Canonical representation (`__repr__` / `schema_repr`) -/

/-- Model of the Python string join used in the repr methods. -/
def joinSep (sep : String) : List String → String
  | [] => ""
  | [x] => x
  | x :: rest => x ++ sep ++ joinSep sep rest

mutual
/-- The canonical text representation, the model of the `__repr__` methods
of the schema dataclasses: `Null`, ..., the bracketed item repr with the kind
capitalized for arrays, `Map[k → v]`, sorted-key braces for objects with `?` marking
optional keys, and the variants joined by a vertical bar for unions. -/
def Schema.reprStr : Schema → String
  | .null => "Null"
  | .bool => "Bool"
  | .int => "Int"
  | .float => "Float"
  | .string => "String"
  | .bytes => "Bytes"
  | .date => "Date"
  | .datetime => "DateTime"
  | .array i k => k.capStr ++ "[" ++ Schema.reprStr i ++ "]"
  | .map k v => "Map[" ++ Schema.reprStr k ++ " → " ++ Schema.reprStr v ++ "]"
  | .object ps os =>
    "\x7b" ++
      joinSep ", "
        ((sortBy (fun p q => strLe p.1 q.1) (reprP ps)).map
          (fun p => p.1 ++ (if os.contains p.1 then "?" else "") ++ ": " ++ p.2))
      ++ "\x7d"
  | .union vs => joinSep " | " (reprL vs)

def reprL : List Schema → List String
  | [] => []
  | s :: rest => Schema.reprStr s :: reprL rest

def reprP : List (String × Schema) → List (String × String)
  | [] => []
  | (k, v) :: rest => (k, Schema.reprStr v) :: reprP rest
end

/-- The public `schema_repr` helper of `core.py` (stable, concise
representation). -/
def schema_repr (schema : Schema) : String := Schema.reprStr schema

/-! ### Union construction (`UnionSchema._flatten` / `UnionSchema.of`) -/

mutual
/-- Model of `UnionSchema._flatten`: expand unions depth-first into the
accumulator until no union remains. -/
def Schema.flatten : Schema → List Schema
  | .union vs => flattenL vs
  | s => [s]

def flattenL : List Schema → List Schema
  | [] => []
  | s :: rest => Schema.flatten s ++ flattenL rest
end

/-- One step of the dict comprehension building `uniq` in `UnionSchema.of`:
insert at the key, keeping the first position but the last value when the
key repeats (Python dict update semantics). -/
def upsert (m : List (String × Schema)) (k : String) (v : Schema) :
    List (String × Schema) :=
  match m with
  | [] => [(k, v)]
  | (k', v') :: rest =>
    if k' = k then (k', v) :: rest else (k', v') :: upsert rest k v

/-- The final step of `UnionSchema.of`: a sole survivor is returned
directly, otherwise the survivors form a union sorted by canonical
representation. -/
def ofFinish : List (String × Schema) → Schema
  | [(_, s)] => s
  | l =>
    Schema.union
      (sortBy (fun a b => strLe (Schema.reprStr a) (Schema.reprStr b))
        (l.map (fun p => p.2)))

/-- Model of `UnionSchema.of`: flatten all inputs, deduplicate by canonical
representation, apply the numeric widening (drop Int when Float is also
present), return the sole survivor directly, otherwise a union of the
survivors sorted by canonical representation. -/
def UnionSchema.of (schemas : List Schema) : Schema :=
  let flat := flattenL schemas
  let uniq := flat.foldl (fun m s => upsert m (Schema.reprStr s) s) []
  let hasInt := uniq.any (fun p => p.2.beq .int)
  let hasFloat := uniq.any (fun p => p.2.beq .float)
  ofFinish
    (if hasInt && hasFloat then uniq.filter (fun p => !(p.2.beq .int)) else uniq)

/-! ### Merge (`Schema.merge` and the dataclass overrides) -/

/-- Association-list lookup, the model of a Python dict lookup. -/
def lookupS : List (String × Schema) → String → Option Schema
  | [], _ => none
  | (k, v) :: rest, key => if k = key then some v else lookupS rest key

/-- Key membership, the model of `k in d` on a Python dict. -/
def hasKeyS (ps : List (String × Schema)) (k : String) : Bool :=
  (lookupS ps k).isSome

/-- The base `Schema.merge` of the Python `Schema` class: equal schemas
merge to themselves, anything else forms a union via `UnionSchema.of`. -/
def Schema.baseMerge (a b : Schema) : Schema :=
  if a.beq b then a else UnionSchema.of [a, b]

mutual
/-- Model of merging, combining `Schema.merge` with the overrides in
`ArraySchema`, `MapSchema` and `ObjectSchema`.  The object case iterates
the union of the two key sets (Python iterates it as a set; the resulting
dict is represented canonically, sorted by key): keys present on both
sides merge recursively, one-sided keys are copied and recorded as
optional, and the optional set of the result is the union of the one-sided
keys with both original optional sets. -/
def Schema.merge : Schema → Schema → Schema
  | .array i k, b =>
    match b with
    | .array i' k' =>
      if k = k' then .array (Schema.merge i i') k
      else Schema.baseMerge (.array i k) (.array i' k')
    | _ => Schema.baseMerge (.array i k) b
  | .map k v, b =>
    match b with
    | .map k' v' => .map (Schema.merge k k') (Schema.merge v v')
    | _ => Schema.baseMerge (.map k v) b
  | .object ps os, b =>
    match b with
    | .object ps' os' =>
      .object
        (sortBy (fun p q => strLe p.1 q.1)
          (mergeProps ps ps' ++ ps'.filter (fun p => !(hasKeyS ps p.1))))
        (sortDedup
          ((ps.filter (fun p => !(hasKeyS ps' p.1))).map (fun p => p.1)
            ++ (ps'.filter (fun p => !(hasKeyS ps p.1))).map (fun p => p.1)
            ++ os ++ os'))
    | _ => Schema.baseMerge (.object ps os) b
  | a, b => Schema.baseMerge a b

/-- The left half of the object merge: every key of the left dict, merged
with the right value when the right dict also has the key. -/
def mergeProps : List (String × Schema) → List (String × Schema) →
    List (String × Schema)
  | [], _ => []
  | (k, v) :: rest, ps' =>
    (k, match lookupS ps' k with
        | some w => Schema.merge v w
        | none => v) :: mergeProps rest ps'
end

/-! ### Invariant predicates -/

/-- Union detection (`isinstance(s, UnionSchema)`). -/
def Schema.isUnion : Schema → Bool
  | .union _ => true
  | _ => false

mutual
/-- The union invariants claimed for every schema produced by merge or
inference, checked at every node: the variants of a union are not unions
themselves, are pairwise distinct by canonical representation, number at
least two, never contain Int and Float together, and appear sorted by
canonical representation. -/
def Schema.wf : Schema → Bool
  | .array i _ => Schema.wf i
  | .map k v => Schema.wf k && Schema.wf v
  | .object ps _ => wfP ps
  | .union vs =>
    wfL vs
      && decide (2 ≤ vs.length)
      && !(vs.contains .int && vs.contains .float)
      && allDistinct (reprL vs)
      && chainLeB (reprL vs)
  | _ => true

def wfL : List Schema → Bool
  | [] => true
  | s :: rest => !s.isUnion && Schema.wf s && wfL rest

def wfP : List (String × Schema) → Bool
  | [] => true
  | p :: rest => Schema.wf p.2 && wfP rest
end

mutual
/-- The representation invariant of the embedding: every dict payload is a
sorted duplicate-free association list and every set payload a sorted
duplicate-free list.  Every Python schema value maps onto a `Schema`
satisfying it. -/
def Schema.normal : Schema → Bool
  | .array i _ => Schema.normal i
  | .map k v => Schema.normal k && Schema.normal v
  | .object ps os =>
    chainLtB (ps.map (fun p => p.1)) && chainLtB os && normP ps
  | .union vs => normL vs
  | _ => true

def normL : List Schema → Bool
  | [] => true
  | s :: rest => Schema.normal s && normL rest

def normP : List (String × Schema) → Bool
  | [] => true
  | p :: rest => Schema.normal p.2 && normP rest
end

/-! ### Runtime values

The closed model of the Python runtime values the module dispatches on:
`None`, `bool`, `int`, `float` (modelled as a rational, so the float with
zero fractional part of the coercion rules is a rational with denominator
one), `str`, binary blobs, `date` and `datetime` values (kept abstract as
integers; `datetime` is the subclass checked first by the inference
chain), the sequence containers, dicts (association lists of value pairs),
objects exposing an attribute dict (`vars(value)`, again value-keyed pairs
that Python guarantees to be text-keyed), and a catch-all for any other
host object (no attribute dict), which inference degrades to String. -/
inductive Value where
  | none
  | bool (b : Bool)
  | int (n : Int)
  | float (q : ℚ)
  | str (s : String)
  | bytes (data : List Nat)
  | date (ordinal : Int)
  | datetime (stamp : Int)
  | list (xs : List Value)
  | tuple (xs : List Value)
  | set (xs : List Value)
  | frozenset (xs : List Value)
  | dict (entries : List (Value × Value))
  | objval (attrs : List (Value × Value))
  | foreign (tag : String)

mutual
/-- Structural equality of runtime values (the Python `==` on the modelled
value kinds). -/
def Value.beq : Value → Value → Bool
  | .none, .none => true
  | .bool a, .bool b => a == b
  | .int a, .int b => a == b
  | .float a, .float b => decide (a = b)
  | .str a, .str b => a == b
  | .bytes a, .bytes b => a == b
  | .date a, .date b => a == b
  | .datetime a, .datetime b => a == b
  | .list a, .list b => beqVL a b
  | .tuple a, .tuple b => beqVL a b
  | .set a, .set b => beqVL a b
  | .frozenset a, .frozenset b => beqVL a b
  | .dict a, .dict b => beqVE a b
  | .objval a, .objval b => beqVE a b
  | .foreign a, .foreign b => a == b
  | _, _ => false

def beqVL : List Value → List Value → Bool
  | [], [] => true
  | a :: as, b :: bs => Value.beq a b && beqVL as bs
  | _, _ => false

def beqVE : List (Value × Value) → List (Value × Value) → Bool
  | [], [] => true
  | (k, v) :: as, (k', v') :: bs => Value.beq k k' && Value.beq v v' && beqVE as bs
  | _, _ => false
end

mutual
theorem valueBeq_refl : ∀ a : Value, Value.beq a a = true
  | .none => rfl
  | .bool a => by
    show (a == a) = true
    simp
  | .int a => by
    show (a == a) = true
    simp
  | .float a => by
    show decide (a = a) = true
    simp
  | .str a => by
    show (a == a) = true
    simp
  | .bytes a => by
    show (a == a) = true
    simp
  | .date a => by
    show (a == a) = true
    simp
  | .datetime a => by
    show (a == a) = true
    simp
  | .list xs => beqVL_refl xs
  | .tuple xs => beqVL_refl xs
  | .set xs => beqVL_refl xs
  | .frozenset xs => beqVL_refl xs
  | .dict es => beqVE_refl es
  | .objval es => beqVE_refl es
  | .foreign a => by
    show (a == a) = true
    simp

theorem beqVL_refl : ∀ l : List Value, beqVL l l = true
  | [] => rfl
  | a :: as => by
    show (Value.beq a a && beqVL as as) = true
    rw [valueBeq_refl a, beqVL_refl as]
    rfl

theorem beqVE_refl : ∀ l : List (Value × Value), beqVE l l = true
  | [] => rfl
  | (k, v) :: as => by
    show (Value.beq k k && Value.beq v v && beqVE as as) = true
    rw [valueBeq_refl k, valueBeq_refl v, beqVE_refl as]
    rfl
end

mutual
theorem valueBeq_eq : ∀ a b : Value, Value.beq a b = true → a = b
  | .none, .none, _ => rfl
  | .bool a, .bool b, h => by
    have h2 : (a == b) = true := h
    rw [eq_of_beq h2]
  | .int a, .int b, h => by
    have h2 : (a == b) = true := h
    rw [eq_of_beq h2]
  | .float a, .float b, h => by
    have h2 : decide (a = b) = true := h
    rw [of_decide_eq_true h2]
  | .str a, .str b, h => by
    have h2 : (a == b) = true := h
    rw [eq_of_beq h2]
  | .bytes a, .bytes b, h => by
    have h2 : (a == b) = true := h
    rw [eq_of_beq h2]
  | .date a, .date b, h => by
    have h2 : (a == b) = true := h
    rw [eq_of_beq h2]
  | .datetime a, .datetime b, h => by
    have h2 : (a == b) = true := h
    rw [eq_of_beq h2]
  | .list a, .list b, h => by rw [beqVL_eq a b h]
  | .tuple a, .tuple b, h => by rw [beqVL_eq a b h]
  | .set a, .set b, h => by rw [beqVL_eq a b h]
  | .frozenset a, .frozenset b, h => by rw [beqVL_eq a b h]
  | .dict a, .dict b, h => by rw [beqVE_eq a b h]
  | .objval a, .objval b, h => by rw [beqVE_eq a b h]
  | .foreign a, .foreign b, h => by
    have h2 : (a == b) = true := h
    rw [eq_of_beq h2]

theorem beqVL_eq : ∀ l₁ l₂ : List Value, beqVL l₁ l₂ = true → l₁ = l₂
  | [], [], _ => rfl
  | a :: as, b :: bs, h => by
    have h2 : (Value.beq a b && beqVL as bs) = true := h
    rw [Bool.and_eq_true] at h2
    rw [valueBeq_eq a b h2.1, beqVL_eq as bs h2.2]

theorem beqVE_eq : ∀ l₁ l₂ : List (Value × Value), beqVE l₁ l₂ = true → l₁ = l₂
  | [], [], _ => rfl
  | (k, v) :: as, (k', v') :: bs, h => by
    have h2 : (Value.beq k k' && Value.beq v v' && beqVE as bs) = true := h
    rw [Bool.and_eq_true, Bool.and_eq_true] at h2
    rw [valueBeq_eq k k' h2.1.1, valueBeq_eq v v' h2.1.2, beqVE_eq as bs h2.2]
end

theorem valueBeq_iff {a b : Value} : Value.beq a b = true ↔ a = b :=
  ⟨valueBeq_eq a b, fun h => h ▸ valueBeq_refl a⟩

instance : DecidableEq Value := fun a b =>
  decidable_of_iff (Value.beq a b = true) valueBeq_iff

instance : BEq Value := ⟨Value.beq⟩

/-- Text detection on a value (`isinstance(k, str)`). -/
def Value.isStr : Value → Bool
  | .str _ => true
  | _ => false

/-- Distinctness of the keys of a modelled dict. -/
def keysDistinctV : List (Value × Value) → Bool
  | [] => true
  | (k, _) :: rest => !(rest.any (fun p => p.1.beq k)) && keysDistinctV rest

/-- Test that all keys of a dict are text (`all(isinstance(k, str) ...)`). -/
def allStrKeys (entries : List (Value × Value)) : Bool :=
  entries.all (fun p => p.1.isStr)

mutual
/-- Python representability of a modelled value: every dict has pairwise
distinct keys and every attribute bag has pairwise distinct text keys
(Python dicts cannot hold duplicate keys and attribute names are strings),
recursively. -/
def Value.valid : Value → Bool
  | .list xs => validVL xs
  | .tuple xs => validVL xs
  | .set xs => validVL xs
  | .frozenset xs => validVL xs
  | .dict entries => keysDistinctV entries && validVE entries
  | .objval attrs => allStrKeys attrs && keysDistinctV attrs && validVE attrs
  | _ => true

def validVL : List Value → Bool
  | [] => true
  | x :: xs => Value.valid x && validVL xs

def validVE : List (Value × Value) → Bool
  | [] => true
  | (k, v) :: rest => Value.valid k && Value.valid v && validVE rest
end

/-! ### Inference (`_infer_single` / `deduce_schema`) -/

/-- The text payload of a text value (only applied to text keys). -/
def strKeyOf : Value → String
  | .str s => s
  | _ => ""

/-- The keys of a text-keyed dict whose value is `None`; those become the
optional set of the inferred object. -/
def nullKeysD (entries : List (Value × Value)) : List String :=
  entries.filterMap
    (fun p => if p.2.beq .none then some (strKeyOf p.1) else Option.none)

mutual
/-- Model of `_infer_single`: the classification chain of §4.3, in source
order.  The dict branch with all-text keys builds an object whose dict and
set payloads are put in the canonical sorted form; the attribute-bag branch
is Python recursing on `vars(value)` — a dict — so its body is the dict
branch applied to the attribute pairs. -/
def _infer_single : Value → Schema
  | .none => .null
  | .bool _ => .bool
  | .int _ => .int
  | .float _ => .float
  | .str _ => .string
  | .bytes _ => .bytes
  | .datetime _ => .datetime
  | .date _ => .date
  | .dict entries =>
    if allStrKeys entries then
      Schema.object (sortBy (fun p q => strLe p.1 q.1) (inferPropsD entries))
        (sortDedup (nullKeysD entries))
    else
      match inferMapAux entries Option.none Option.none with
      | (Option.none, _) => Schema.map .string .null
      | (some ks, vsO) => Schema.map ks (vsO.getD .null)
  | .list xs => Schema.array ((inferItems xs Option.none).getD .null) .list
  | .tuple xs => Schema.array ((inferItems xs Option.none).getD .null) .tuple
  | .set xs => Schema.array ((inferItems xs Option.none).getD .null) .set
  | .frozenset xs => Schema.array ((inferItems xs Option.none).getD .null) .set
  | .objval attrs =>
    if allStrKeys attrs then
      Schema.object (sortBy (fun p q => strLe p.1 q.1) (inferPropsD attrs))
        (sortDedup (nullKeysD attrs))
    else
      match inferMapAux attrs Option.none Option.none with
      | (Option.none, _) => Schema.map .string .null
      | (some ks, vsO) => Schema.map ks (vsO.getD .null)
  | .foreign _ => .string

/-- Per-entry schemas of a text-keyed dict: a `None` value infers to Null
(and the key is listed by `nullKeysD`), anything else recurses. -/
def inferPropsD : List (Value × Value) → List (String × Schema)
  | [] => []
  | (k, v) :: rest =>
    (strKeyOf k,
      match v with
      | .none => Schema.null
      | w => _infer_single w) :: inferPropsD rest

/-- The key/value folds of the map branch: `key_s` and `val_s` accumulate
the Merge of the per-key and per-value schemas. -/
def inferMapAux : List (Value × Value) → Option Schema → Option Schema →
    Option Schema × Option Schema
  | [], ks, vs => (ks, vs)
  | (k, v) :: rest, ks, vs =>
    inferMapAux rest
      (some (match ks with
        | Option.none => _infer_single k
        | some s => s.merge (_infer_single k)))
      (some (match vs with
        | Option.none => _infer_single v
        | some s => s.merge (_infer_single v)))

/-- The item fold of the sequence branch. -/
def inferItems : List Value → Option Schema → Option Schema
  | [], acc => acc
  | x :: rest, acc =>
    inferItems rest
      (some (match acc with
        | Option.none => _infer_single x
        | some s => s.merge (_infer_single x)))
end

/-- The loop of `deduce_schema`: accumulate the pairwise merge and the
all-null flag over the samples. -/
def deduceAux : List Value → Option Schema → Bool → Schema
  | [], merged, allNull =>
    if allNull then .null
    else
      match merged with
      | some m => m
      | Option.none => .null
  | v :: rest, merged, allNull =>
    let s := _infer_single v
    deduceAux rest
      (some (match merged with
        | Option.none => s
        | some m => m.merge s))
      (allNull && s.beq .null)

/-- Model of `deduce_schema`: Null on an empty sample list, Null when every
sample inferred to Null, otherwise the left fold of Merge over the
per-sample schemas. -/
def deduce_schema (values : List Value) : Schema :=
  match values with
  | [] => .null
  | _ => deduceAux values Option.none true

/-! ### Coercion (`*.coerce` / `coerce_to_schema`) -/

/-- Coercion failures.  `typeError` models the `TypeError`s raised by the
primitive and container rules, `keyError` the
`KeyError("Missing required field: k")` of the object rule (carrying the
field name), and `unionExhausted` the final `TypeError` of
`coerce_to_schema`, which embeds the failure of the last variant tried
(`None` when the union had no variants at all). -/
inductive Err where
  | typeError (msg : String)
  | keyError (field : String)
  | unionExhausted (last : Option Err)

/-- Success test on a coercion outcome. -/
def isOkE : Except Err Value → Bool
  | .ok _ => true
  | .error _ => false

/-- The error of a failed coercion outcome. -/
def errOf : Except Err Value → Option Err
  | .ok _ => Option.none
  | .error e => some e

/-- Model of `NullSchema.coerce`. -/
def NullSchema.coerce : Value → Except Err Value
  | .none => .ok .none
  | _ => .error (.typeError "Cannot coerce non-null to null")

/-- Model of `BoolSchema.coerce`: booleans pass through, non-boolean
numbers cast by truthiness, trimmed lower-cased text matches the fixed true
and false word lists, anything else fails. -/
def BoolSchema.coerce : Value → Except Err Value
  | .bool b => .ok (.bool b)
  | .int n => .ok (.bool (decide (n ≠ 0)))
  | .float q => .ok (.bool (decide (q ≠ 0)))
  | .str s =>
    let v := pyLower (pyStrip s)
    if ["true", "t", "1", "yes", "y"].contains v then .ok (.bool true)
    else if ["false", "f", "0", "no", "n"].contains v then .ok (.bool false)
    else .error (.typeError "Cannot coerce a string to bool")
  | _ => .error (.typeError "Cannot coerce a value to bool")

/-- Model of `IntSchema.coerce`: booleans are always rejected, integers
pass through, floats convert when `is_integer()` holds, trimmed text
converts when it is a digit run or a minus sign followed by one. -/
def IntSchema.coerce : Value → Except Err Value
  | .bool _ => .error (.typeError "Bool is not accepted as Int")
  | .int n => .ok (.int n)
  | .float q =>
    if q.den = 1 then .ok (.int q.num)
    else .error (.typeError "Cannot coerce a fractional float to int")
  | .str s =>
    let t := pyStrip s
    if pyIsDigit t || (startsWithDash t && pyIsDigit (dropFirst t)) then
      .ok (.int (parsePyInt t))
    else .error (.typeError "Cannot coerce a string to int")
  | _ => .error (.typeError "Cannot coerce a value to int")

/-- Decimal float text parser: an optional sign, an integer part and an
optional fractional part (at least one of them nonempty), and an optional
exponent.  The Python float constructor additionally accepts the non-finite
words inf, infinity and nan, but those are rejected by the isfinite guard
in `FloatSchema.coerce`, so mapping them to a parse failure is
observationally the same; underscored digit groups are not modelled. -/
def parsePyFloat (s : String) : Option ℚ :=
  let afterSign : List Char → (Bool × List Char) := fun l =>
    match l with
    | '-' :: r => (true, r)
    | '+' :: r => (false, r)
    | r => (false, r)
  let (neg, r1) := afterSign s.data
  let ip := r1.takeWhile isPyDigit
  let r2 := r1.dropWhile isPyDigit
  let step2 : Option (List Char × List Char) :=
    match r2 with
    | '.' :: r3 =>
      let fp := r3.takeWhile isPyDigit
      let r4 := r3.dropWhile isPyDigit
      if ip.isEmpty && fp.isEmpty then Option.none else some (fp, r4)
    | _ => if ip.isEmpty then Option.none else some ([], r2)
  match step2 with
  | Option.none => Option.none
  | some (fp, rest) =>
    let base : ℚ := (digitsToNat (ip ++ fp) : ℚ) / ((10 : ℚ) ^ fp.length)
    let signed : ℚ := if neg then -base else base
    match rest with
    | [] => some signed
    | e :: r5 =>
      if e = 'e' || e = 'E' then
        let (eneg, r6) := afterSign r5
        let ed := r6.takeWhile isPyDigit
        let r7 := r6.dropWhile isPyDigit
        if ed.isEmpty || !r7.isEmpty then Option.none
        else
          let ex : Int := if eneg then -(digitsToNat ed : Int) else (digitsToNat ed : Int)
          some (signed * (10 : ℚ) ^ ex)
      else Option.none

/-- Model of `FloatSchema.coerce`: booleans are rejected, numbers cast to
float, trimmed text converts when it parses to a finite float. -/
def FloatSchema.coerce : Value → Except Err Value
  | .bool _ => .error (.typeError "Bool is not accepted as Float")
  | .int n => .ok (.float (n : ℚ))
  | .float q => .ok (.float q)
  | .str s =>
    match parsePyFloat (pyStrip s) with
    | some q => .ok (.float q)
    | Option.none => .error (.typeError "Cannot coerce a string to float")
  | _ => .error (.typeError "Cannot coerce a value to float")

mutual
/-- Best-effort rendering of a value as Python repr text, used by the
string coercion on container values.  Floats, blobs, dates and foreign
objects are rendered schematically (their Python text forms depend on
formatting details outside the scope of this model). -/
def Value.pyRepr : Value → String
  | .none => "None"
  | .bool b => if b then "True" else "False"
  | .int n => toString n
  | .float q => toString q.num ++ "e" ++ toString q.den
  | .str s => "\x27" ++ s ++ "\x27"
  | .bytes l => "bytes(" ++ toString l.length ++ ")"
  | .date d => "date(" ++ toString d ++ ")"
  | .datetime t => "datetime(" ++ toString t ++ ")"
  | .list xs => "[" ++ joinSep ", " (pyReprL xs) ++ "]"
  | .tuple xs => "(" ++ joinSep ", " (pyReprL xs) ++ ")"
  | .set xs => "\x7b" ++ joinSep ", " (pyReprL xs) ++ "\x7d"
  | .frozenset xs => "frozenset(\x7b" ++ joinSep ", " (pyReprL xs) ++ "\x7d)"
  | .dict es => "\x7b" ++ joinSep ", " (pyReprE es) ++ "\x7d"
  | .objval es => "object(\x7b" ++ joinSep ", " (pyReprE es) ++ "\x7d)"
  | .foreign tag => tag

def pyReprL : List Value → List String
  | [] => []
  | x :: xs => Value.pyRepr x :: pyReprL xs

def pyReprE : List (Value × Value) → List String
  | [] => []
  | (k, v) :: rest => (Value.pyRepr k ++ ": " ++ Value.pyRepr v) :: pyReprE rest
end

/-- Best-effort rendering of a value as Python str text (`str(value)`):
text passes through unquoted, everything else renders as its repr. -/
def Value.pyStr : Value → String
  | .str s => s
  | v => Value.pyRepr v

/-- Model of `StringSchema.coerce`: `None` passes through unchanged,
anything else converts by its text rendering. -/
def StringSchema.coerce : Value → Except Err Value
  | .none => .ok .none
  | v => .ok (.str v.pyStr)

/-- Model of `DateSchema.coerce`: accepts a date that is not a datetime. -/
def DateSchema.coerce : Value → Except Err Value
  | .date d => .ok (.date d)
  | _ => .error (.typeError "Cannot coerce a value to date")

/-- Model of `DateTimeSchema.coerce`: accepts a datetime only. -/
def DateTimeSchema.coerce : Value → Except Err Value
  | .datetime t => .ok (.datetime t)
  | _ => .error (.typeError "Cannot coerce a value to datetime")

/-- Dict lookup with a text key, the model of `k in value` and `value[k]`
on the mapping given to `ObjectSchema.coerce`. -/
def dictLookup : List (Value × Value) → String → Option Value
  | [], _ => Option.none
  | (key, v) :: rest, k =>
    if key.beq (.str k) then some v else dictLookup rest k

/-- First-occurrence deduplication by value equality, the effect of
rebuilding a Python set from coerced elements. -/
def dedupAux : List Value → List Value → List Value
  | [], _ => []
  | x :: xs, seen =>
    if seen.any (fun y => y.beq x) then dedupAux xs seen
    else x :: dedupAux xs (x :: seen)

def dedupValues (l : List Value) : List Value := dedupAux l []

mutual
/-- Model of the per-class `coerce` methods, dispatched on the schema as
Python method resolution does: the primitive rules above; the inherited
identity passthrough for `BytesSchema`, `MapSchema` and a bare
`UnionSchema` (none of them overrides `coerce`; unions are expanded only by
`coerce_to_schema`); the `ArraySchema` rule mapping the item coercion over
a kind-compatible container; and the `ObjectSchema` rule over a mapping or
an attribute bag. -/
def Schema.coerce : Schema → Value → Except Err Value
  | .null, v => NullSchema.coerce v
  | .bool, v => BoolSchema.coerce v
  | .int, v => IntSchema.coerce v
  | .float, v => FloatSchema.coerce v
  | .string, v => StringSchema.coerce v
  | .bytes, v => .ok v
  | .date, v => DateSchema.coerce v
  | .datetime, v => DateTimeSchema.coerce v
  | .array i kind, v =>
    match kind, v with
    | .list, .list xs => (coerceItems i xs).map Value.list
    | .tuple, .list xs => (coerceItems i xs).map (fun ys => Value.tuple ys)
    | .tuple, .tuple xs => (coerceItems i xs).map (fun ys => Value.tuple ys)
    | .set, .list xs => (coerceItems i xs).map (fun ys => Value.set (dedupValues ys))
    | .set, .set xs => (coerceItems i xs).map (fun ys => Value.set (dedupValues ys))
    | .set, .tuple xs => (coerceItems i xs).map (fun ys => Value.set (dedupValues ys))
    | _, _ => .error (.typeError "Cannot coerce a value to this array kind")
  | .map _ _, v => .ok v
  | .object ps os, v =>
    match v with
    | .dict m =>
      (coerceFields ps os m).map
        (fun out => Value.dict (out.map (fun p => (Value.str p.1, p.2))))
    | .objval attrs =>
      (coerceFields ps os attrs).map
        (fun out => Value.dict (out.map (fun p => (Value.str p.1, p.2))))
    | _ => .error (.typeError "ObjectSchema expects a mapping-like value")
  | .union _, v => .ok v
termination_by s _ => (sizeOf s, 0)

/-- The element loop of `ArraySchema.coerce`, stopping at the first
failure. -/
def coerceItems : Schema → List Value → Except Err (List Value)
  | _, [] => .ok []
  | i, x :: xs =>
    match Schema.coerce i x with
    | .error e => .error e
    | .ok y =>
      match coerceItems i xs with
      | .error e => .error e
      | .ok ys => .ok (y :: ys)
termination_by i xs => (sizeOf i, xs.length + 1)

/-- The property loop of `ObjectSchema.coerce`, stopping at the first
failure. -/
def coerceFields : List (String × Schema) → List String → List (Value × Value) →
    Except Err (List (String × Value))
  | [], _, _ => .ok []
  | (k, sch) :: rest, os, m =>
    match fieldCoerce sch os k m with
    | .error e => .error e
    | .ok y =>
      match coerceFields rest os m with
      | .error e => .error e
      | .ok out => .ok ((k, y) :: out)
termination_by ps _ _ => (sizeOf ps, 0)

/-- One property of `ObjectSchema.coerce`: a present non-null value coerces
against the field schema; otherwise an optional key binds to `None` and a
required key raises the missing-field error. -/
def fieldCoerce (sch : Schema) (os : List String) (k : String)
    (m : List (Value × Value)) : Except Err Value :=
  match dictLookup m k with
  | some v =>
    if v.beq .none then
      if os.contains k then .ok .none else .error (.keyError k)
    else Schema.coerce sch v
  | Option.none =>
    if os.contains k then .ok .none else .error (.keyError k)
termination_by (sizeOf sch, 1)
end

mutual
/-- Model of `coerce_to_schema`: a union tries each variant in its stored
order and otherwise the per-class rule applies. -/
def coerce_to_schema (value : Value) (schema : Schema) : Except Err Value :=
  match schema with
  | .union variants => tryVariants value variants Option.none
  | s => Schema.coerce s value

/-- The variant loop of `coerce_to_schema`: return the first success,
remember the last failure, and report it when every variant failed. -/
def tryVariants (value : Value) : List Schema → Option Err → Except Err Value
  | [], lastErr => .error (.unionExhausted lastErr)
  | s :: rest, _ =>
    match coerce_to_schema value s with
    | .ok r => .ok r
    | .error e => tryVariants value rest (some e)
end

/-- Structural equality of coercion failures. -/
def Err.beq : Err → Err → Bool
  | .typeError a, .typeError b => a == b
  | .keyError a, .keyError b => a == b
  | .unionExhausted a, .unionExhausted b =>
    match a, b with
    | Option.none, Option.none => true
    | some x, some y => Err.beq x y
    | _, _ => false
  | _, _ => false

theorem errBeq_refl : ∀ e : Err, Err.beq e e = true
  | .typeError a => by simp [Err.beq]
  | .keyError a => by simp [Err.beq]
  | .unionExhausted Option.none => rfl
  | .unionExhausted (some x) => by
    show Err.beq x x = true
    exact errBeq_refl x

theorem errBeq_eq : ∀ e₁ e₂ : Err, Err.beq e₁ e₂ = true → e₁ = e₂
  | .typeError a, .typeError b, h => by
    have h2 : (a == b) = true := h
    rw [eq_of_beq h2]
  | .keyError a, .keyError b, h => by
    have h2 : (a == b) = true := h
    rw [eq_of_beq h2]
  | .unionExhausted Option.none, .unionExhausted Option.none, _ => rfl
  | .unionExhausted (some x), .unionExhausted (some y), h => by
    have h2 : Err.beq x y = true := h
    rw [errBeq_eq x y h2]

instance : DecidableEq Err := fun a b =>
  decidable_of_iff (Err.beq a b = true)
    ⟨errBeq_eq a b, fun h => h ▸ errBeq_refl a⟩

instance : DecidableEq (Except Err Value) := fun a b =>
  match a, b with
  | .ok x, .ok y =>
    if h : x = y then isTrue (by rw [h])
    else isFalse (by intro hc; cases hc; exact h rfl)
  | .error x, .error y =>
    if h : x = y then isTrue (by rw [h])
    else isFalse (by intro hc; cases hc; exact h rfl)
  | .ok _, .error _ => isFalse (by intro hc; cases hc)
  | .error _, .ok _ => isFalse (by intro hc; cases hc)

instance : LawfulBEq Schema where
  eq_of_beq h := Schema.beq_eq _ _ h
  rfl := Schema.beq_refl _

instance : LawfulBEq Value where
  eq_of_beq h := valueBeq_eq _ _ h
  rfl := valueBeq_refl _

/-! ### Claim C4: inference on an empty mapping -/

/-- Claim C4, counterexample: inferring a schema from an empty dict does
not yield Map(String, Null).  The all-keys-are-text test is vacuously true
on an empty dict, so the object branch applies and the Map placeholder line
is unreachable. -/
theorem claim_C4_counterexample :
    _infer_single (.dict []) ≠ Schema.map .string .null := by decide

/-- Claim C4, amended: inferring a schema from an empty associative
collection yields the empty Object schema (no properties, no optional
keys), not the Map(String, Null) placeholder. -/
theorem claim_C4_amended : _infer_single (.dict []) = Schema.object [] [] := by
  decide

/-! ### Claim C1, counterexample -/

/-- Claim C1, counterexample: `deduce_schema` is not invariant under
permutations of the samples.  With samples `{"a": 1}`, `5`, `{"b": 2}`,
folding in the given order keeps the two objects as separate union
variants, while moving the integer last first merges the two objects into
one; the results differ structurally and even by canonical
representation. -/
theorem claim_C1_counterexample :
    deduce_schema [.dict [(.str "a", .int 1)], .int 5, .dict [(.str "b", .int 2)]]
      ≠ deduce_schema [.dict [(.str "a", .int 1)], .dict [(.str "b", .int 2)], .int 5]
    ∧ schema_repr (deduce_schema
        [.dict [(.str "a", .int 1)], .int 5, .dict [(.str "b", .int 2)]])
      ≠ schema_repr (deduce_schema
        [.dict [(.str "a", .int 1)], .dict [(.str "b", .int 2)], .int 5]) := by
  decide

/-! ### Claim C7: coercion to the Int schema -/

/-- Claim C7: coercion to Int always rejects booleans, returns integers
unchanged, converts a float exactly when its fractional part is zero (that
is, when it equals an integer; the result is that integer), converts text
exactly when the trimmed text is an optionally minus-prefixed digit run
(the result is the parsed integer), and fails on every other input kind. -/
theorem claim_C7_int_coercion :
    (∀ b, isOkE (IntSchema.coerce (.bool b)) = false)
    ∧ (∀ n, IntSchema.coerce (.int n) = .ok (.int n))
    ∧ (∀ q : ℚ, (isOkE (IntSchema.coerce (.float q)) = true ↔ ∃ n : ℤ, q = (n : ℚ)))
    ∧ (∀ q : ℚ, q.den = 1 → IntSchema.coerce (.float q) = .ok (.int q.num))
    ∧ (∀ s, (isOkE (IntSchema.coerce (.str s)) = true ↔
        (pyIsDigit (pyStrip s)
          || (startsWithDash (pyStrip s) && pyIsDigit (dropFirst (pyStrip s)))) = true))
    ∧ (∀ s, (pyIsDigit (pyStrip s)
          || (startsWithDash (pyStrip s) && pyIsDigit (dropFirst (pyStrip s)))) = true →
        IntSchema.coerce (.str s) = .ok (.int (parsePyInt (pyStrip s))))
    ∧ (∀ v, isOkE (IntSchema.coerce v) = true →
        (∃ n, v = Value.int n) ∨ (∃ q, v = Value.float q) ∨ (∃ s, v = Value.str s)) := by
  refine ⟨fun b => rfl, fun n => rfl, fun q => ?_, fun q hq => ?_, fun s => ?_,
    fun s hs => ?_, fun v hv => ?_⟩
  · show isOkE (if q.den = 1 then .ok (.int q.num) else .error _) = true ↔ _
    split
    · rename_i h
      simp only [isOkE, true_iff]
      exact ⟨q.num, ((Rat.den_eq_one_iff q).mp h).symm⟩
    · rename_i h
      constructor
      · intro hc
        simp [isOkE] at hc
      · rintro ⟨n, rfl⟩
        exact absurd (Rat.den_intCast n) h
  · show (if q.den = 1 then Except.ok (Value.int q.num) else .error _) = _
    rw [if_pos hq]
  · show isOkE (if _ then .ok (.int (parsePyInt (pyStrip s))) else .error _) = true ↔ _
    split
    · rename_i h
      simp only [isOkE, true_iff]
      exact h
    · rename_i h
      constructor
      · intro hc
        simp [isOkE] at hc
      · intro hc
        exact absurd hc h
  · show (if _ then Except.ok (Value.int (parsePyInt (pyStrip s))) else .error _) = _
    rw [if_pos hs]
  · cases v with
    | int n => exact Or.inl ⟨n, rfl⟩
    | float q => exact Or.inr (Or.inl ⟨q, rfl⟩)
    | str s => exact Or.inr (Or.inr ⟨s, rfl⟩)
    | none => exact absurd hv (by simp [IntSchema.coerce, isOkE])
    | bool b => exact absurd hv (by simp [IntSchema.coerce, isOkE])
    | bytes l => exact absurd hv (by simp [IntSchema.coerce, isOkE])
    | date d => exact absurd hv (by simp [IntSchema.coerce, isOkE])
    | datetime t => exact absurd hv (by simp [IntSchema.coerce, isOkE])
    | list xs => exact absurd hv (by simp [IntSchema.coerce, isOkE])
    | tuple xs => exact absurd hv (by simp [IntSchema.coerce, isOkE])
    | set xs => exact absurd hv (by simp [IntSchema.coerce, isOkE])
    | frozenset xs => exact absurd hv (by simp [IntSchema.coerce, isOkE])
    | dict es => exact absurd hv (by simp [IntSchema.coerce, isOkE])
    | objval es => exact absurd hv (by simp [IntSchema.coerce, isOkE])
    | foreign tag => exact absurd hv (by simp [IntSchema.coerce, isOkE])

/-- Claim C7, witness: sample applications of the characterization at
concrete inputs (a float equal to the integer two converts to two, the
text " -17 " converts to minus seventeen). -/
theorem claim_C7_witness :
    ((2 : ℚ)).den = 1
    ∧ IntSchema.coerce (.float (2 : ℚ)) = .ok (.int (2 : ℚ).num)
    ∧ (pyIsDigit (pyStrip " -17 ")
        || (startsWithDash (pyStrip " -17 ") && pyIsDigit (dropFirst (pyStrip " -17 ")))) = true
    ∧ IntSchema.coerce (.str " -17 ") = .ok (.int (parsePyInt (pyStrip " -17 "))) := by
  refine ⟨rfl, claim_C7_int_coercion.2.2.2.1 2 rfl, by decide,
    claim_C7_int_coercion.2.2.2.2.2.1 " -17 " (by decide)⟩

/-! ### Claim C8: union coercion order and failure reporting -/

theorem tryVariants_ok : ∀ (pre : List Schema) (s : Schema) (post : List Schema)
    (v : Value) (r : Value) (last : Option Err),
    (∀ t ∈ pre, isOkE (coerce_to_schema v t) = false) →
    coerce_to_schema v s = .ok r →
    tryVariants v (pre ++ s :: post) last = .ok r := by
  intro pre
  induction pre with
  | nil =>
    intro s post v r last _ hok
    show tryVariants v (s :: post) last = .ok r
    simp only [tryVariants, hok]
  | cons t pre ih =>
    intro s post v r last hpre hok
    have ht := hpre t (by simp)
    show tryVariants v (t :: (pre ++ s :: post)) last = .ok r
    rcases he : coerce_to_schema v t with e | r'
    · simp only [tryVariants, he]
      exact ih s post v r (some e) (fun u hu => hpre u (by simp [hu])) hok
    · rw [he, isOkE] at ht
      cases ht

theorem tryVariants_exhaust : ∀ (pre : List Schema) (s : Schema) (v : Value)
    (e : Err) (last : Option Err),
    (∀ t ∈ pre, isOkE (coerce_to_schema v t) = false) →
    coerce_to_schema v s = .error e →
    tryVariants v (pre ++ [s]) last = .error (.unionExhausted (some e)) := by
  intro pre
  induction pre with
  | nil =>
    intro s v e last _ herr
    show tryVariants v [s] last = _
    simp only [tryVariants, herr]
  | cons t pre ih =>
    intro s v e last hpre herr
    have ht := hpre t (by simp)
    show tryVariants v (t :: (pre ++ [s])) last = _
    rcases he : coerce_to_schema v t with e' | r'
    · simp only [tryVariants, he]
      exact ih s v e (some e') (fun u hu => hpre u (by simp [hu])) herr
    · rw [he, isOkE] at ht
      cases ht

/-- Claim C8: coercing against a union tries the variants in the stored
order, returns the outcome of the first variant whose coercion succeeds,
and when every variant fails it reports a union-exhausted failure carrying
the failure of the last variant tried. -/
theorem claim_C8_union_coercion (v : Value) (vs : List Schema) :
    (∀ pre s post, vs = pre ++ s :: post →
      (∀ t ∈ pre, isOkE (coerce_to_schema v t) = false) →
      isOkE (coerce_to_schema v s) = true →
      coerce_to_schema v (.union vs) = coerce_to_schema v s)
    ∧ (∀ pre s, vs = pre ++ [s] →
      (∀ t ∈ vs, isOkE (coerce_to_schema v t) = false) →
      ∃ e, coerce_to_schema v s = .error e
        ∧ coerce_to_schema v (.union vs) = .error (.unionExhausted (some e))) := by
  constructor
  · intro pre s post hvs hpre hok
    rcases he : coerce_to_schema v s with e | r
    · rw [he, isOkE] at hok
      cases hok
    · show tryVariants v vs Option.none = _
      rw [hvs]
      exact tryVariants_ok pre s post v r Option.none hpre he
  · intro pre s hvs hall
    have hs := hall s (by rw [hvs]; simp)
    rcases he : coerce_to_schema v s with e | r
    · refine ⟨e, rfl, ?_⟩
      show tryVariants v vs Option.none = _
      rw [hvs]
      exact tryVariants_exhaust pre s v e Option.none
        (fun t ht => hall t (by rw [hvs]; exact List.mem_append_left _ ht)) he
    · rw [he, isOkE] at hs
      cases hs

/-- Claim C8, witness: over the union of Null and Int, the integer seven
is accepted by the second variant after the first fails, and a bytes value
fails every variant, reporting the Int failure as the last one. -/
theorem claim_C8_witness :
    coerce_to_schema (.int 7) (.union [.null, .int]) = coerce_to_schema (.int 7) .int
    ∧ ∃ e, coerce_to_schema (.bytes []) .int = .error e
        ∧ coerce_to_schema (.bytes []) (.union [.null, .int])
          = .error (.unionExhausted (some e)) := by
  constructor
  · exact (claim_C8_union_coercion (.int 7) [.null, .int]).1 [.null] .int [] rfl
      (by
        intro t ht
        simp only [List.mem_singleton] at ht
        subst ht
        simp [coerce_to_schema, Schema.coerce, NullSchema.coerce, isOkE])
      (by simp [coerce_to_schema, Schema.coerce, IntSchema.coerce, isOkE])
  · exact (claim_C8_union_coercion (.bytes []) [.null, .int]).2 [.null] .int rfl
      (by
        intro t ht
        rcases List.mem_cons.mp ht with rfl | ht
        · simp [coerce_to_schema, Schema.coerce, NullSchema.coerce, isOkE]
        · simp only [List.mem_singleton] at ht
          subst ht
          simp [coerce_to_schema, Schema.coerce, IntSchema.coerce, isOkE])

/-! ### Claim C9: object coercion keeps exactly the declared keys -/

theorem coerceFields_keys : ∀ (ps : List (String × Schema)) (os : List String)
    (m : List (Value × Value)) (out : List (String × Value)),
    coerceFields ps os m = .ok out →
    out.map (fun p => p.1) = ps.map (fun p => p.1) := by
  intro ps
  induction ps with
  | nil =>
    intro os m out h
    simp only [coerceFields] at h
    cases h
    rfl
  | cons p rest ih =>
    intro os m out h
    rcases p with ⟨k, sch⟩
    simp only [coerceFields] at h
    rcases hf : fieldCoerce sch os k m with e | y
    · rw [hf] at h
      cases h
    · rw [hf] at h
      rcases hr : coerceFields rest os m with e | out'
      · rw [hr] at h
        cases h
      · rw [hr] at h
        cases h
        simp only [List.map_cons]
        rw [ih os m out' hr]

theorem coerceFields_fresh_key : ∀ (ps : List (String × Schema)) (os : List String)
    (m : List (Value × Value)) (k : String) (w : Value),
    k ∉ ps.map (fun p => p.1) →
    coerceFields ps os ((Value.str k, w) :: m) = coerceFields ps os m := by
  intro ps
  induction ps with
  | nil =>
    intro os m k w _
    simp only [coerceFields]
  | cons p rest ih =>
    intro os m k w hk
    rcases p with ⟨k', sch⟩
    have hne : k ≠ k' := by
      intro h
      exact hk (by simp [h])
    have hlook : dictLookup ((Value.str k, w) :: m) k' = dictLookup m k' := by
      show (if (Value.str k).beq (.str k') then some w else dictLookup m k') = _
      have : (Value.str k).beq (.str k') = false := by
        show (k == k') = false
        exact beq_eq_false_iff_ne.mpr hne
      rw [this]
      rfl
    simp only [coerceFields, fieldCoerce, hlook]
    rw [ih os m k w (fun hmem => hk (by simp [hmem]))]

/-- Claim C9: when coercing a mapping against an Object schema succeeds,
the keys of the returned mapping are exactly the declared property names
(in declaration order); input keys that are not declared are dropped
silently and never cause a failure (prepending an undeclared key to the
input changes nothing). -/
theorem claim_C9_object_coercion_keys :
    (∀ (ps : List (String × Schema)) (os : List String) (m : List (Value × Value))
      (out : Value),
      Schema.coerce (.object ps os) (.dict m) = .ok out →
      ∃ fields, out = Value.dict fields
        ∧ fields.map (fun p => p.1) = ps.map (fun p => Value.str p.1))
    ∧ (∀ (ps : List (String × Schema)) (os : List String) (m : List (Value × Value))
      (k : String) (w : Value),
      k ∉ ps.map (fun p => p.1) →
      Schema.coerce (.object ps os) (.dict ((Value.str k, w) :: m))
        = Schema.coerce (.object ps os) (.dict m)) := by
  constructor
  · intro ps os m out h
    simp only [Schema.coerce] at h
    rcases hc : coerceFields ps os m with e | fields0
    · rw [hc] at h
      cases h
    · rw [hc] at h
      have hout : out = Value.dict (fields0.map (fun p => (Value.str p.1, p.2))) := by
        cases h
        rfl
      refine ⟨fields0.map (fun p => (Value.str p.1, p.2)), hout, ?_⟩
      have hk := coerceFields_keys ps os m fields0 hc
      have h2 : (fields0.map (fun p => (Value.str p.1, p.2))).map (fun p => p.1)
          = (fields0.map (fun p => p.1)).map Value.str := by
        simp [List.map_map, Function.comp]
      have h3 : (ps.map (fun p => p.1)).map Value.str
          = ps.map (fun p => Value.str p.1) := by
        simp [List.map_map, Function.comp]
      rw [h2, hk, h3]
  · intro ps os m k w hk
    simp only [Schema.coerce]
    rw [coerceFields_fresh_key ps os m k w hk]

/-- Claim C9, witness: coercing `{"a": 5, "zz": 1}` against the object
schema with the single required property `a` succeeds and returns a
mapping whose only key is `a`; prepending the undeclared key changes
nothing. -/
theorem claim_C9_witness :
    (∃ fields,
      (Value.dict [(Value.str "a", Value.int 5)] : Value) = Value.dict fields
        ∧ fields.map (fun p => p.1) = [("a", Schema.int)].map (fun p => Value.str p.1))
    ∧ Schema.coerce (.object [("a", .int)] [])
        (.dict [(Value.str "zz", .int 1), (Value.str "a", .int 5)])
      = Schema.coerce (.object [("a", .int)] []) (.dict [(Value.str "a", .int 5)]) := by
  constructor
  · exact claim_C9_object_coercion_keys.1 [("a", .int)] [] [(Value.str "a", .int 5)] _
      (by simp [Schema.coerce, coerceFields, fieldCoerce, dictLookup, Value.beq,
        IntSchema.coerce, Except.map])
  · exact claim_C9_object_coercion_keys.2 [("a", .int)] [] [(Value.str "a", .int 5)]
      "zz" (.int 1) (by decide)

/-! ### Claim C10: null-valued declared keys coerce like absent keys -/

/-- Removal of all bindings of a text key from a mapping. -/
def eraseKeyV (m : List (Value × Value)) (k : String) : List (Value × Value) :=
  m.filter (fun p => !(p.1.beq (.str k)))

theorem dictLookup_eraseKeyV_self : ∀ (m : List (Value × Value)) (k : String),
    dictLookup (eraseKeyV m k) k = Option.none := by
  intro m k
  induction m with
  | nil => rfl
  | cons p rest ih =>
    rcases p with ⟨key, v⟩
    by_cases h : key.beq (.str k) = true
    · simpa [eraseKeyV, h] using ih
    · rw [Bool.not_eq_true] at h
      simpa [eraseKeyV, dictLookup, h] using ih

theorem dictLookup_eraseKeyV_other : ∀ (m : List (Value × Value)) (k k' : String),
    k' ≠ k → dictLookup (eraseKeyV m k) k' = dictLookup m k' := by
  intro m k k' hne
  induction m with
  | nil => rfl
  | cons p rest ih =>
    rcases p with ⟨key, v⟩
    by_cases h : key.beq (.str k) = true
    · have hkey : key = Value.str k := valueBeq_eq _ _ h
      subst hkey
      have : (Value.str k).beq (.str k') = false := by
        show (k == k') = false
        exact beq_eq_false_iff_ne.mpr (fun hc => hne hc.symm)
      simpa [eraseKeyV, h, dictLookup, this] using ih
    · rw [Bool.not_eq_true] at h
      simp only [eraseKeyV, List.filter_cons, h]
      show dictLookup ((key, v) :: eraseKeyV rest k) k' = _
      simp only [dictLookup]
      split
      · rfl
      · exact ih

theorem coerceFields_eraseKeyV : ∀ (ps : List (String × Schema)) (os : List String)
    (m : List (Value × Value)) (k : String),
    dictLookup m k = some Value.none →
    coerceFields ps os m = coerceFields ps os (eraseKeyV m k) := by
  intro ps
  induction ps with
  | nil =>
    intro os m k _
    simp only [coerceFields]
  | cons p rest ih =>
    intro os m k hk
    rcases p with ⟨k', sch⟩
    have hfield : fieldCoerce sch os k' m = fieldCoerce sch os k' (eraseKeyV m k) := by
      by_cases hkk : k' = k
      · subst hkk
        rw [fieldCoerce, fieldCoerce, hk, dictLookup_eraseKeyV_self]
        rfl
      · rw [fieldCoerce, fieldCoerce, dictLookup_eraseKeyV_other m k k' hkk]
    simp only [coerceFields, hfield]
    rw [ih os m k hk]

/-- Claim C10: during object coercion, a declared key bound to a null
value behaves exactly like an absent key: the per-field rule yields Null
for an optional key and the missing-field error naming the key for a
required one, without consulting the field schema, and the whole object
coercion is unchanged by erasing the null binding. -/
theorem claim_C10_null_field :
    (∀ (sch : Schema) (os : List String) (k : String) (m : List (Value × Value)),
      dictLookup m k = some Value.none →
      fieldCoerce sch os k m
        = if os.contains k then .ok Value.none else .error (.keyError k))
    ∧ (∀ (ps : List (String × Schema)) (os : List String) (k : String)
      (m : List (Value × Value)),
      dictLookup m k = some Value.none →
      Schema.coerce (.object ps os) (.dict m)
        = Schema.coerce (.object ps os) (.dict (eraseKeyV m k))) := by
  constructor
  · intro sch os k m hk
    rw [fieldCoerce, hk]
    rfl
  · intro ps os k m hk
    simp only [Schema.coerce]
    rw [coerceFields_eraseKeyV ps os m k hk]

/-- Claim C10, witness: with input `{"a": None}`, the field rule for the
required key `a` fails with the missing-field error naming `a`, for an
optional `a` it yields Null even though the field schema is Int, and the
object coercion equals the coercion of the emptied mapping. -/
theorem claim_C10_witness :
    fieldCoerce .int [] "a" [(Value.str "a", Value.none)] = .error (.keyError "a")
    ∧ fieldCoerce .int ["a"] "a" [(Value.str "a", Value.none)] = .ok Value.none
    ∧ Schema.coerce (.object [("a", .int)] ["a"]) (.dict [(Value.str "a", Value.none)])
      = Schema.coerce (.object [("a", .int)] ["a"])
          (.dict (eraseKeyV [(Value.str "a", Value.none)] "a")) := by
  refine ⟨?_, ?_, ?_⟩
  · rw [claim_C10_null_field.1 .int [] "a" _ (by decide)]
    decide
  · rw [claim_C10_null_field.1 .int ["a"] "a" _ (by decide)]
    decide
  · exact claim_C10_null_field.2 [("a", .int)] ["a"] "a" _ (by decide)

/-! ### Flattening lemmas -/

theorem strLe_trans {a b c : String} (h₁ : strLe a b = true)
    (h₂ : strLe b c = true) : strLe a c = true := by
  by_cases hab : a = b
  · subst hab
    exact h₂
  · by_cases hbc : b = c
    · subst hbc
      exact h₁
    · exact strLe_of_strLt
        (strLt_trans (strLt_of_strLe_ne h₁ hab) (strLt_of_strLe_ne h₂ hbc))

theorem strSorted_of_le_nodup {l : List String}
    (h1 : l.Pairwise (fun a b => strLe a b = true)) (h2 : l.Nodup) :
    StrSorted l :=
  (List.Pairwise.and h1 h2).imp (fun ⟨a, b⟩ => strLt_of_strLe_ne a b)

theorem flatten_nonUnion {s : Schema} (h : s.isUnion = false) :
    Schema.flatten s = [s] := by
  cases s <;> first | rfl | cases h

theorem flattenL_append (l₁ l₂ : List Schema) :
    flattenL (l₁ ++ l₂) = flattenL l₁ ++ flattenL l₂ := by
  induction l₁ with
  | nil => rfl
  | cons s rest ih =>
    show Schema.flatten s ++ flattenL (rest ++ l₂) = _
    rw [ih]
    exact (List.append_assoc _ _ _).symm

mutual
theorem flatten_not_union : ∀ (s : Schema), ∀ t ∈ Schema.flatten s, t.isUnion = false
  | .null, t, h => by rw [List.mem_singleton.mp h]; rfl
  | .bool, t, h => by rw [List.mem_singleton.mp h]; rfl
  | .int, t, h => by rw [List.mem_singleton.mp h]; rfl
  | .float, t, h => by rw [List.mem_singleton.mp h]; rfl
  | .string, t, h => by rw [List.mem_singleton.mp h]; rfl
  | .bytes, t, h => by rw [List.mem_singleton.mp h]; rfl
  | .date, t, h => by rw [List.mem_singleton.mp h]; rfl
  | .datetime, t, h => by rw [List.mem_singleton.mp h]; rfl
  | .array i k, t, h => by rw [List.mem_singleton.mp h]; rfl
  | .map k v, t, h => by rw [List.mem_singleton.mp h]; rfl
  | .object ps os, t, h => by rw [List.mem_singleton.mp h]; rfl
  | .union vs, t, h => flattenL_not_union vs t h

theorem flattenL_not_union : ∀ (l : List Schema), ∀ t ∈ flattenL l, t.isUnion = false
  | [], t, h => absurd h (List.not_mem_nil t)
  | s :: rest, t, h => by
    have h' : t ∈ Schema.flatten s ++ flattenL rest := h
    rcases List.mem_append.mp h' with h'' | h''
    · exact flatten_not_union s t h''
    · exact flattenL_not_union rest t h''
end

theorem normL_iff : ∀ l : List Schema, normL l = true ↔ ∀ s ∈ l, s.normal = true := by
  intro l
  induction l with
  | nil => simp [normL]
  | cons s rest ih =>
    show (s.normal && normL rest) = true ↔ _
    rw [Bool.and_eq_true, ih]
    constructor
    · rintro ⟨h1, h2⟩ t ht
      rcases List.mem_cons.mp ht with rfl | ht
      · exact h1
      · exact h2 t ht
    · intro h
      exact ⟨h s (by simp), fun t ht => h t (by simp [ht])⟩

theorem normP_iff : ∀ l : List (String × Schema),
    normP l = true ↔ ∀ p ∈ l, p.2.normal = true := by
  intro l
  induction l with
  | nil => simp [normP]
  | cons p rest ih =>
    show (p.2.normal && normP rest) = true ↔ _
    rw [Bool.and_eq_true, ih]
    constructor
    · rintro ⟨h1, h2⟩ q hq
      rcases List.mem_cons.mp hq with rfl | hq
      · exact h1
      · exact h2 q hq
    · intro h
      exact ⟨h p (by simp), fun q hq => h q (by simp [hq])⟩

theorem wfL_iff : ∀ l : List Schema,
    wfL l = true ↔ ∀ s ∈ l, s.isUnion = false ∧ s.wf = true := by
  intro l
  induction l with
  | nil => simp [wfL]
  | cons s rest ih =>
    show (!s.isUnion && s.wf && wfL rest) = true ↔ _
    rw [Bool.and_eq_true, Bool.and_eq_true, ih]
    constructor
    · rintro ⟨⟨h1, h2⟩, h3⟩ t ht
      rcases List.mem_cons.mp ht with rfl | ht
      · exact ⟨by simpa using h1, h2⟩
      · exact h3 t ht
    · intro h
      refine ⟨⟨?_, (h s (by simp)).2⟩, fun t ht => h t (by simp [ht])⟩
      simp [(h s (by simp)).1]

theorem wfP_iff : ∀ l : List (String × Schema),
    wfP l = true ↔ ∀ p ∈ l, p.2.wf = true := by
  intro l
  induction l with
  | nil => simp [wfP]
  | cons p rest ih =>
    show (p.2.wf && wfP rest) = true ↔ _
    rw [Bool.and_eq_true, ih]
    constructor
    · rintro ⟨h1, h2⟩ q hq
      rcases List.mem_cons.mp hq with rfl | hq
      · exact h1
      · exact h2 q hq
    · intro h
      exact ⟨h p (by simp), fun q hq => h q (by simp [hq])⟩

mutual
theorem flatten_normal : ∀ (s : Schema), s.normal = true →
    ∀ t ∈ Schema.flatten s, t.normal = true
  | .null, hs, t, h => by rw [List.mem_singleton.mp h]; exact hs
  | .bool, hs, t, h => by rw [List.mem_singleton.mp h]; exact hs
  | .int, hs, t, h => by rw [List.mem_singleton.mp h]; exact hs
  | .float, hs, t, h => by rw [List.mem_singleton.mp h]; exact hs
  | .string, hs, t, h => by rw [List.mem_singleton.mp h]; exact hs
  | .bytes, hs, t, h => by rw [List.mem_singleton.mp h]; exact hs
  | .date, hs, t, h => by rw [List.mem_singleton.mp h]; exact hs
  | .datetime, hs, t, h => by rw [List.mem_singleton.mp h]; exact hs
  | .array i k, hs, t, h => by rw [List.mem_singleton.mp h]; exact hs
  | .map k v, hs, t, h => by rw [List.mem_singleton.mp h]; exact hs
  | .object ps os, hs, t, h => by rw [List.mem_singleton.mp h]; exact hs
  | .union vs, hs, t, h => flattenL_normal vs ((normL_iff vs).mp hs) t h

theorem flattenL_normal : ∀ (l : List Schema), (∀ s ∈ l, s.normal = true) →
    ∀ t ∈ flattenL l, t.normal = true
  | [], _, t, h => absurd h (List.not_mem_nil t)
  | s :: rest, hl, t, h => by
    have h' : t ∈ Schema.flatten s ++ flattenL rest := h
    rcases List.mem_append.mp h' with h'' | h''
    · exact flatten_normal s (hl s (by simp)) t h''
    · exact flattenL_normal rest (fun u hu => hl u (by simp [hu])) t h''
end

mutual
theorem flatten_wf : ∀ (s : Schema), s.wf = true →
    ∀ t ∈ Schema.flatten s, t.wf = true
  | .null, hs, t, h => by rw [List.mem_singleton.mp h]; exact hs
  | .bool, hs, t, h => by rw [List.mem_singleton.mp h]; exact hs
  | .int, hs, t, h => by rw [List.mem_singleton.mp h]; exact hs
  | .float, hs, t, h => by rw [List.mem_singleton.mp h]; exact hs
  | .string, hs, t, h => by rw [List.mem_singleton.mp h]; exact hs
  | .bytes, hs, t, h => by rw [List.mem_singleton.mp h]; exact hs
  | .date, hs, t, h => by rw [List.mem_singleton.mp h]; exact hs
  | .datetime, hs, t, h => by rw [List.mem_singleton.mp h]; exact hs
  | .array i k, hs, t, h => by rw [List.mem_singleton.mp h]; exact hs
  | .map k v, hs, t, h => by rw [List.mem_singleton.mp h]; exact hs
  | .object ps os, hs, t, h => by rw [List.mem_singleton.mp h]; exact hs
  | .union vs, hs, t, h => by
    have hL : wfL vs = true := by
      have hs' : (wfL vs && _ && _ && _ && _) = true := hs
      simp only [Bool.and_eq_true] at hs'
      exact hs'.1.1.1.1
    exact flattenL_wf vs (fun u hu => ((wfL_iff vs).mp hL u hu).2) t h

theorem flattenL_wf : ∀ (l : List Schema), (∀ s ∈ l, s.wf = true) →
    ∀ t ∈ flattenL l, t.wf = true
  | [], _, t, h => absurd h (List.not_mem_nil t)
  | s :: rest, hl, t, h => by
    have h' : t ∈ Schema.flatten s ++ flattenL rest := h
    rcases List.mem_append.mp h' with h'' | h''
    · exact flatten_wf s (hl s (by simp)) t h''
    · exact flattenL_wf rest (fun u hu => hl u (by simp [hu])) t h''
end

theorem flatten_ne_nil_of_wf {s : Schema} (h : s.wf = true) :
    Schema.flatten s ≠ [] := by
  cases s
  case union vs =>
    have hs' : (wfL vs && decide (2 ≤ vs.length) && _ && _ && _) = true := h
    simp only [Bool.and_eq_true, decide_eq_true_eq] at hs'
    have hlen := hs'.1.1.1.2
    have hL := hs'.1.1.1.1
    have hnu : ∀ t ∈ vs, t.isUnion = false := fun t ht => ((wfL_iff vs).mp hL t ht).1
    have : flattenL vs = vs := by
      clear hlen hs' hL h
      induction vs with
      | nil => rfl
      | cons t rest ih =>
        show Schema.flatten t ++ flattenL rest = t :: rest
        rw [flatten_nonUnion (hnu t (by simp)), ih (fun u hu => hnu u (by simp [hu]))]
        rfl
    show flattenL vs ≠ []
    rw [this]
    intro hc
    rw [hc] at hlen
    simp at hlen
  all_goals exact fun hc => List.cons_ne_nil _ _ hc

/-! ### Repr lemmas -/

theorem reprL_eq_map : ∀ l : List Schema, reprL l = l.map Schema.reprStr := by
  intro l
  induction l with
  | nil => rfl
  | cons s rest ih =>
    show Schema.reprStr s :: reprL rest = _
    rw [ih]
    rfl

theorem reprP_eq_map : ∀ l : List (String × Schema),
    reprP l = l.map (fun p => (p.1, Schema.reprStr p.2)) := by
  intro l
  induction l with
  | nil => rfl
  | cons p rest ih =>
    rcases p with ⟨k, v⟩
    show (k, Schema.reprStr v) :: reprP rest = _
    rw [ih]
    rfl

/-- The first character of a string, used to separate the canonical
representations of the composite schema variants from the primitive
names. -/
def firstChar (s : String) : Option Char := s.data.head?

theorem firstChar_append {s : String} (t : String) {c : Char}
    (h : firstChar s = some c) : firstChar (s ++ t) = some c := by
  rw [firstChar, String.data_append]
  rcases hs : s.data with _ | ⟨a, l⟩
  · rw [firstChar, hs] at h
    cases h
  · rw [firstChar, hs] at h
    cases h
    rfl

theorem firstChar_array (i : Schema) (k : AKind) :
    firstChar (Schema.reprStr (.array i k)) = some (k.capStr.data.headD 'L') := by
  show firstChar ((k.capStr ++ "[" ++ Schema.reprStr i) ++ "]") = _
  cases k
  · exact firstChar_append _ (firstChar_append _ (firstChar_append _ rfl))
  · exact firstChar_append _ (firstChar_append _ (firstChar_append _ rfl))
  · exact firstChar_append _ (firstChar_append _ (firstChar_append _ rfl))

theorem firstChar_map (a b : Schema) :
    firstChar (Schema.reprStr (.map a b)) = some 'M' := by
  show firstChar ((("Map[" ++ Schema.reprStr a) ++ " → " ++ Schema.reprStr b) ++ "]") = _
  exact firstChar_append _ (firstChar_append _ (firstChar_append _ (firstChar_append _ rfl)))

theorem firstChar_object (ps : List (String × Schema)) (os : List String) :
    firstChar (Schema.reprStr (.object ps os)) = some (Char.ofNat 123) := by
  show firstChar (("\x7b" ++ _) ++ "\x7d") = _
  exact firstChar_append _ (firstChar_append _ rfl)

theorem reprStr_eq_int_iff {s : Schema} (h : s.isUnion = false) :
    Schema.reprStr s = "Int" ↔ s = .int := by
  constructor
  · intro hr
    cases s
    case int => rfl
    case union => cases h
    case null => exact absurd hr (by decide)
    case bool => exact absurd hr (by decide)
    case float => exact absurd hr (by decide)
    case string => exact absurd hr (by decide)
    case bytes => exact absurd hr (by decide)
    case date => exact absurd hr (by decide)
    case datetime => exact absurd hr (by decide)
    case array i k =>
      exfalso
      have h1 := firstChar_array i k
      rw [hr] at h1
      cases k <;> exact absurd h1 (by decide)
    case map a b =>
      exfalso
      have h1 := firstChar_map a b
      rw [hr] at h1
      exact absurd h1 (by decide)
    case object ps os =>
      exfalso
      have h1 := firstChar_object ps os
      rw [hr] at h1
      exact absurd h1 (by decide)
  · rintro rfl
    rfl

theorem reprStr_eq_float_iff {s : Schema} (h : s.isUnion = false) :
    Schema.reprStr s = "Float" ↔ s = .float := by
  constructor
  · intro hr
    cases s
    case float => rfl
    case union => cases h
    case null => exact absurd hr (by decide)
    case bool => exact absurd hr (by decide)
    case int => exact absurd hr (by decide)
    case string => exact absurd hr (by decide)
    case bytes => exact absurd hr (by decide)
    case date => exact absurd hr (by decide)
    case datetime => exact absurd hr (by decide)
    case array i k =>
      exfalso
      have h1 := firstChar_array i k
      rw [hr] at h1
      cases k <;> exact absurd h1 (by decide)
    case map a b =>
      exfalso
      have h1 := firstChar_map a b
      rw [hr] at h1
      exact absurd h1 (by decide)
    case object ps os =>
      exfalso
      have h1 := firstChar_object ps os
      rw [hr] at h1
      exact absurd h1 (by decide)
  · rintro rfl
    rfl

/-! ### Deduplication lemmas for `UnionSchema.of` -/

theorem mem_upsert : ∀ (m : List (String × Schema)) (k0 : String) (v : Schema)
    (p : String × Schema), p ∈ upsert m k0 v → p = (k0, v) ∨ p ∈ m := by
  intro m k0 v p
  induction m with
  | nil =>
    intro h
    rcases List.mem_singleton.mp h with rfl
    exact Or.inl rfl
  | cons q rest ih =>
    rcases q with ⟨k', v'⟩
    intro h
    simp only [upsert] at h
    split at h
    · rename_i hk
      rcases List.mem_cons.mp h with rfl | h
      · subst hk
        exact Or.inl rfl
      · exact Or.inr (by simp [h])
    · rcases List.mem_cons.mp h with rfl | h
      · exact Or.inr (by simp)
      · rcases ih h with h' | h'
        · exact Or.inl h'
        · exact Or.inr (by simp [h'])

theorem mem_keys_upsert : ∀ (m : List (String × Schema)) (k0 : String) (v : Schema)
    (k : String),
    k ∈ (upsert m k0 v).map (fun p => p.1) ↔ k = k0 ∨ k ∈ m.map (fun p => p.1) := by
  intro m k0 v k
  induction m with
  | nil => simp [upsert]
  | cons q rest ih =>
    rcases q with ⟨k', v'⟩
    simp only [upsert]
    split
    · rename_i hk
      subst hk
      simp only [List.map_cons, List.mem_cons]
      tauto
    · simp only [List.map_cons, List.mem_cons, ih]
      tauto

theorem nodup_keys_upsert : ∀ (m : List (String × Schema)) (k0 : String) (v : Schema),
    (m.map (fun p => p.1)).Nodup → ((upsert m k0 v).map (fun p => p.1)).Nodup := by
  intro m k0 v
  induction m with
  | nil =>
    intro _
    simp [upsert]
  | cons q rest ih =>
    rcases q with ⟨k', v'⟩
    intro h
    rcases List.nodup_cons.mp h with ⟨hk', hrest⟩
    simp only [upsert]
    split
    · exact h
    · rename_i hk
      refine List.nodup_cons.mpr ⟨?_, ih hrest⟩
      intro hc
      rcases (mem_keys_upsert rest k0 v k').mp hc with rfl | hc
      · exact hk rfl
      · exact hk' hc

/-- The dict comprehension of `UnionSchema.of` over a list of schemas,
starting from an accumulator. -/
def uniqFold (m : List (String × Schema)) (l : List Schema) :
    List (String × Schema) :=
  l.foldl (fun m s => upsert m (Schema.reprStr s) s) m

theorem uniqFold_reprKey : ∀ (l : List Schema) (m : List (String × Schema)),
    (∀ p ∈ m, Schema.reprStr p.2 = p.1) →
    ∀ p ∈ uniqFold m l, Schema.reprStr p.2 = p.1 := by
  intro l
  induction l with
  | nil => exact fun m hm => hm
  | cons s rest ih =>
    intro m hm
    refine ih (upsert m (Schema.reprStr s) s) ?_
    intro p hp
    rcases mem_upsert m (Schema.reprStr s) s p hp with rfl | hp
    · rfl
    · exact hm p hp

theorem uniqFold_src : ∀ (l : List Schema) (m : List (String × Schema)),
    ∀ p ∈ uniqFold m l, p ∈ m ∨ p.2 ∈ l := by
  intro l
  induction l with
  | nil => exact fun m p hp => Or.inl hp
  | cons s rest ih =>
    intro m p hp
    rcases ih (upsert m (Schema.reprStr s) s) p hp with h | h
    · rcases mem_upsert m (Schema.reprStr s) s p h with rfl | h'
      · exact Or.inr (by simp)
      · exact Or.inl h'
    · exact Or.inr (by simp [h])

theorem uniqFold_nodup : ∀ (l : List Schema) (m : List (String × Schema)),
    (m.map (fun p => p.1)).Nodup → ((uniqFold m l).map (fun p => p.1)).Nodup := by
  intro l
  induction l with
  | nil => exact fun m hm => hm
  | cons s rest ih =>
    intro m hm
    exact ih _ (nodup_keys_upsert m (Schema.reprStr s) s hm)

theorem uniqFold_keys_mem : ∀ (l : List Schema) (m : List (String × Schema))
    (k : String),
    k ∈ (uniqFold m l).map (fun p => p.1)
      ↔ k ∈ m.map (fun p => p.1) ∨ k ∈ l.map Schema.reprStr := by
  intro l
  induction l with
  | nil => simp [uniqFold]
  | cons s rest ih =>
    intro m k
    show k ∈ (uniqFold (upsert m (Schema.reprStr s) s) rest).map _ ↔ _
    rw [ih]
    simp only [mem_keys_upsert, List.map_cons, List.mem_cons]
    tauto

/-- The surviving key set of `UnionSchema.of` described directly: the
canonical representations of the flattened inputs, with "Int" removed when
both "Int" and "Float" occur. -/
def ofKeys (l : List Schema) : List String :=
  let K := (flattenL l).map Schema.reprStr
  if "Int" ∈ K ∧ "Float" ∈ K then K.filter (fun k => !(k == "Int")) else K

theorem bool_not_eq_true (b : Bool) : ((!b) = true) ↔ (b = false) := by
  cases b <;> simp

/-- The master description of `UnionSchema.of`: the survivor list it hands
to `ofFinish` carries exactly the keys of `ofKeys`, pairwise distinct, with
each value drawn from the flattened inputs, named by its canonical
representation, and with Int and Float never surviving together. -/
theorem of_spec (l : List Schema) :
    ∃ u2 : List (String × Schema),
      UnionSchema.of l = ofFinish u2
      ∧ (∀ p ∈ u2, Schema.reprStr p.2 = p.1 ∧ p.2 ∈ flattenL l)
      ∧ (u2.map (fun p => p.1)).Nodup
      ∧ (∀ k, k ∈ u2.map (fun p => p.1) ↔ k ∈ ofKeys l)
      ∧ ¬((Schema.int ∈ u2.map (fun p => p.2)) ∧ (Schema.float ∈ u2.map (fun p => p.2)))
      ∧ (flattenL l ≠ [] → u2 ≠ []) := by
  have hNU : ∀ t ∈ flattenL l, t.isUnion = false := flattenL_not_union l
  have hRK : ∀ p ∈ uniqFold [] (flattenL l), Schema.reprStr p.2 = p.1 :=
    uniqFold_reprKey (flattenL l) [] (by intro p hp; cases hp)
  have hSrc : ∀ p ∈ uniqFold [] (flattenL l), p.2 ∈ flattenL l := by
    intro p hp
    rcases uniqFold_src (flattenL l) [] p hp with h | h
    · cases h
    · exact h
  have hND : ((uniqFold [] (flattenL l)).map (fun p => p.1)).Nodup :=
    uniqFold_nodup (flattenL l) [] (by simp)
  have hKM : ∀ k, k ∈ (uniqFold [] (flattenL l)).map (fun p => p.1)
      ↔ k ∈ (flattenL l).map Schema.reprStr := by
    intro k
    rw [uniqFold_keys_mem]
    simp
  have hval_int : ∀ p ∈ uniqFold [] (flattenL l), (p.2 = Schema.int ↔ p.1 = "Int") := by
    intro p hp
    constructor
    · intro h
      rw [← hRK p hp, h]
      rfl
    · intro h
      have := hRK p hp
      rw [h] at this
      exact (reprStr_eq_int_iff (hNU p.2 (hSrc p hp))).mp this
  have hval_float : ∀ p ∈ uniqFold [] (flattenL l),
      (p.2 = Schema.float ↔ p.1 = "Float") := by
    intro p hp
    constructor
    · intro h
      rw [← hRK p hp, h]
      rfl
    · intro h
      have := hRK p hp
      rw [h] at this
      exact (reprStr_eq_float_iff (hNU p.2 (hSrc p hp))).mp this
  have hasInt_iff : ((uniqFold [] (flattenL l)).any (fun p => p.2.beq .int) = true)
      ↔ "Int" ∈ (flattenL l).map Schema.reprStr := by
    rw [List.any_eq_true, ← hKM]
    constructor
    · rintro ⟨p, hp, hbeq⟩
      have : p.2 = Schema.int := Schema.beq_eq _ _ hbeq
      have h1 := (hval_int p hp).mp this
      exact h1 ▸ List.mem_map_of_mem (fun p => p.1) hp
    · intro hk
      rcases List.mem_map.mp hk with ⟨p, hp, hk1⟩
      refine ⟨p, hp, ?_⟩
      have : p.2 = Schema.int := (hval_int p hp).mpr hk1
      rw [this]
      rfl
  have hasFloat_iff : ((uniqFold [] (flattenL l)).any (fun p => p.2.beq .float) = true)
      ↔ "Float" ∈ (flattenL l).map Schema.reprStr := by
    rw [List.any_eq_true, ← hKM]
    constructor
    · rintro ⟨p, hp, hbeq⟩
      have : p.2 = Schema.float := Schema.beq_eq _ _ hbeq
      have h1 := (hval_float p hp).mp this
      exact h1 ▸ List.mem_map_of_mem (fun p => p.1) hp
    · intro hk
      rcases List.mem_map.mp hk with ⟨p, hp, hk1⟩
      refine ⟨p, hp, ?_⟩
      have : p.2 = Schema.float := (hval_float p hp).mpr hk1
      rw [this]
      rfl
  have hof : UnionSchema.of l = ofFinish
      (if ((uniqFold [] (flattenL l)).any (fun p => p.2.beq .int)
          && (uniqFold [] (flattenL l)).any (fun p => p.2.beq .float))
        then (uniqFold [] (flattenL l)).filter (fun p => !(p.2.beq .int))
        else uniqFold [] (flattenL l)) := rfl
  by_cases hw : ((uniqFold [] (flattenL l)).any (fun p => p.2.beq .int)
      && (uniqFold [] (flattenL l)).any (fun p => p.2.beq .float)) = true
  · -- widening: Int is dropped
    refine ⟨(uniqFold [] (flattenL l)).filter (fun p => !(p.2.beq .int)),
      ?_, ?_, ?_, ?_, ?_, ?_⟩
    · rw [hof, if_pos hw]
    · intro p hp
      have hp' := List.mem_of_mem_filter hp
      exact ⟨hRK p hp', hSrc p hp'⟩
    · exact List.Nodup.sublist (List.Sublist.map _ (List.filter_sublist _)) hND
    · intro k
      rw [Bool.and_eq_true] at hw
      have hInt := hasInt_iff.mp hw.1
      have hFloat := hasFloat_iff.mp hw.2
      rw [ofKeys]
      simp only [if_pos (And.intro hInt hFloat)]
      constructor
      · intro hk
        rcases List.mem_map.mp hk with ⟨p, hp, hk1⟩
        rcases List.mem_filter.mp hp with ⟨hp', hflt⟩
        rw [List.mem_filter]
        refine ⟨(hKM k).mp (hk1 ▸ List.mem_map_of_mem (fun p => p.1) hp'), ?_⟩
        rw [bool_not_eq_true, beq_eq_false_iff_ne]
        intro hc
        have hpint : p.2 = Schema.int := (hval_int p hp').mpr (hk1.trans hc)
        rw [hpint] at hflt
        simp [Schema.beq_refl] at hflt
      · intro hk
        rcases List.mem_filter.mp hk with ⟨hk', hne⟩
        rw [bool_not_eq_true, beq_eq_false_iff_ne] at hne
        rcases List.mem_map.mp ((hKM k).mpr hk') with ⟨p, hp, hk1⟩
        refine List.mem_map.mpr ⟨p, List.mem_filter.mpr ⟨hp, ?_⟩, hk1⟩
        rw [bool_not_eq_true, Bool.eq_false_iff]
        intro hc
        have hpint : p.2 = Schema.int := Schema.beq_eq _ _ hc
        exact hne (by rw [← hk1]; exact (hval_int p hp).mp hpint)
    · rintro ⟨hi, _⟩
      rcases List.mem_map.mp hi with ⟨p, hp, hp2⟩
      rcases List.mem_filter.mp hp with ⟨_, hflt⟩
      rw [hp2] at hflt
      simp [Schema.beq_refl] at hflt
    · intro hne
      rw [Bool.and_eq_true] at hw
      have hFloat := hasFloat_iff.mp hw.2
      rcases List.mem_map.mp ((hKM "Float").mpr hFloat) with ⟨p, hp, hk1⟩
      have hval : p.2 = Schema.float := (hval_float p hp).mpr hk1
      intro hc
      have hmem : p ∈ (uniqFold [] (flattenL l)).filter (fun p => !(p.2.beq .int)) := by
        rw [List.mem_filter]
        refine ⟨hp, ?_⟩
        rw [hval]
        rfl
      rw [hc] at hmem
      cases hmem
  · -- no widening
    refine ⟨uniqFold [] (flattenL l), ?_, ?_, hND, ?_, ?_, ?_⟩
    · rw [hof, if_neg hw]
    · exact fun p hp => ⟨hRK p hp, hSrc p hp⟩
    · intro k
      rw [ofKeys]
      have hno : ¬("Int" ∈ (flattenL l).map Schema.reprStr
          ∧ "Float" ∈ (flattenL l).map Schema.reprStr) := by
        rintro ⟨hi, hf⟩
        exact hw (by rw [Bool.and_eq_true, hasInt_iff, hasFloat_iff]; exact ⟨hi, hf⟩)
      simp only [if_neg hno]
      exact hKM k
    · rintro ⟨hi, hf⟩
      rcases List.mem_map.mp hi with ⟨p, hp, hp2⟩
      rcases List.mem_map.mp hf with ⟨q, hq, hq2⟩
      refine hw ?_
      rw [Bool.and_eq_true, List.any_eq_true, List.any_eq_true]
      exact ⟨⟨p, hp, by rw [hp2]; rfl⟩, ⟨q, hq, by rw [hq2]; rfl⟩⟩
    · intro hne hc
      rcases List.exists_mem_of_ne_nil _ hne with ⟨t, ht⟩
      have hmem : Schema.reprStr t ∈ (flattenL l).map Schema.reprStr :=
        List.mem_map_of_mem _ ht
      rcases List.mem_map.mp ((hKM _).mpr hmem) with ⟨p, hp, _⟩
      rw [hc] at hp
      cases hp

theorem listContains_iff {α : Type} [BEq α] [LawfulBEq α] (l : List α) (x : α) :
    l.contains x = true ↔ x ∈ l := by
  induction l with
  | nil => simp [List.contains]
  | cons a as ih =>
    show (x == a || as.contains x) = true ↔ _
    rw [Bool.or_eq_true, ih]
    simp only [List.mem_cons, beq_iff_eq]

theorem allDistinct_iff (l : List String) : allDistinct l = true ↔ l.Nodup := by
  induction l with
  | nil => simp [allDistinct]
  | cons x xs ih =>
    show (!(xs.contains x) && allDistinct xs) = true ↔ _
    rw [Bool.and_eq_true, bool_not_eq_true, ih, List.nodup_cons]
    constructor
    · rintro ⟨h1, h2⟩
      refine ⟨fun hc => ?_, h2⟩
      rw [(listContains_iff xs x).mpr hc] at h1
      cases h1
    · rintro ⟨h1, h2⟩
      refine ⟨?_, h2⟩
      rw [Bool.eq_false_iff]
      intro hc
      exact h1 ((listContains_iff xs x).mp hc)

theorem chainLeB_of_pairwise : ∀ l : List String,
    l.Pairwise (fun a b => strLe a b = true) → chainLeB l = true := by
  intro l
  induction l with
  | nil => intro _; rfl
  | cons a as ih =>
    intro h
    rcases List.pairwise_cons.mp h with ⟨ha, has⟩
    cases as with
    | nil => rfl
    | cons b bs =>
      show (strLe a b && chainLeB (b :: bs)) = true
      rw [ha b (by simp), ih has]
      rfl

theorem sortByRepr_map_repr (u2 : List (String × Schema))
    (hRK : ∀ p ∈ u2, Schema.reprStr p.2 = p.1) :
    reprL (sortBy (fun a b => strLe (Schema.reprStr a) (Schema.reprStr b))
        (u2.map (fun p => p.2)))
      = sortBy strLe (u2.map (fun p => p.1)) := by
  rw [reprL_eq_map, sortBy_map]
  congr 1
  rw [List.map_map]
  exact List.map_congr_left (fun p hp => hRK p hp)

theorem union_sortBy_repr (u2 : List (String × Schema)) (K : List String)
    (hRK : ∀ p ∈ u2, Schema.reprStr p.2 = p.1)
    (hND : (u2.map (fun p => p.1)).Nodup)
    (hKM : ∀ k, k ∈ u2.map (fun p => p.1) ↔ k ∈ K) :
    Schema.reprStr (Schema.union
        (sortBy (fun a b => strLe (Schema.reprStr a) (Schema.reprStr b))
          (u2.map (fun p => p.2))))
      = joinSep " | " (sortDedup K) := by
  show joinSep " | " (reprL _) = _
  rw [sortByRepr_map_repr u2 hRK]
  congr 1
  apply strSorted_eq_of_mem
  · apply strSorted_of_le_nodup
    · exact pairwise_sortBy strLe_total (fun a b c => strLe_trans) _
    · exact (sortBy_perm strLe _).nodup_iff.mpr hND
  · exact sorted_sortDedup K
  · intro a
    rw [mem_sortBy, mem_sortDedup]
    exact hKM a

theorem of_repr (l : List Schema) :
    Schema.reprStr (UnionSchema.of l) = joinSep " | " (sortDedup (ofKeys l)) := by
  obtain ⟨u2, hof, hRK, hND, hKM, _, _⟩ := of_spec l
  rw [hof]
  have hRK' : ∀ p ∈ u2, Schema.reprStr p.2 = p.1 := fun p hp => (hRK p hp).1
  rcases u2 with _ | ⟨⟨k, s⟩, rest⟩
  · exact union_sortBy_repr [] (ofKeys l) hRK' hND hKM
  · rcases rest with _ | ⟨q, rest2⟩
    · show Schema.reprStr s = _
      have hk : Schema.reprStr s = k := hRK' (k, s) (by simp)
      have hmem : ∀ k', k' ∈ ofKeys l ↔ k' = k := by
        intro k'
        rw [← hKM k']
        simp
      have hsd : sortDedup (ofKeys l) = [k] := by
        apply strSorted_eq_of_mem (sorted_sortDedup _)
        · simp [StrSorted]
        · intro a
          rw [mem_sortDedup]
          simp [hmem a]
      rw [hsd, hk]
      rfl
    · exact union_sortBy_repr ((k, s) :: q :: rest2) (ofKeys l) hRK' hND hKM

theorem of_repr_eq_of_mem {l₁ l₂ : List Schema}
    (h : ∀ k, k ∈ (flattenL l₁).map Schema.reprStr
      ↔ k ∈ (flattenL l₂).map Schema.reprStr) :
    Schema.reprStr (UnionSchema.of l₁) = Schema.reprStr (UnionSchema.of l₂) := by
  rw [of_repr, of_repr]
  congr 1
  apply sortDedup_eq_of_mem
  intro a
  rw [ofKeys, ofKeys]
  by_cases hc : "Int" ∈ (flattenL l₁).map Schema.reprStr
      ∧ "Float" ∈ (flattenL l₁).map Schema.reprStr
  · have hc2 : "Int" ∈ (flattenL l₂).map Schema.reprStr
        ∧ "Float" ∈ (flattenL l₂).map Schema.reprStr := ⟨(h _).mp hc.1, (h _).mp hc.2⟩
    rw [if_pos hc, if_pos hc2]
    rw [List.mem_filter, List.mem_filter, h a]
  · have hc2 : ¬("Int" ∈ (flattenL l₂).map Schema.reprStr
        ∧ "Float" ∈ (flattenL l₂).map Schema.reprStr) := by
      rintro ⟨h1, h2⟩
      exact hc ⟨(h _).mpr h1, (h _).mpr h2⟩
    rw [if_neg hc, if_neg hc2]
    exact h a

theorem of_swap_repr (a b : Schema) :
    Schema.reprStr (UnionSchema.of [a, b]) = Schema.reprStr (UnionSchema.of [b, a]) := by
  apply of_repr_eq_of_mem
  intro k
  have h1 : flattenL [a, b] = Schema.flatten a ++ Schema.flatten b := by
    show Schema.flatten a ++ (Schema.flatten b ++ []) = _
    rw [List.append_nil]
  have h2 : flattenL [b, a] = Schema.flatten b ++ Schema.flatten a := by
    show Schema.flatten b ++ (Schema.flatten a ++ []) = _
    rw [List.append_nil]
  rw [h1, h2, List.map_append, List.map_append, List.mem_append, List.mem_append]
  tauto

theorem of_wf (l : List Schema) (hl : ∀ s ∈ l, s.wf = true) (hne : l ≠ []) :
    (UnionSchema.of l).wf = true := by
  have hflwf : ∀ t ∈ flattenL l, t.wf = true := flattenL_wf l hl
  have hflne : flattenL l ≠ [] := by
    rcases l with _ | ⟨s, rest⟩
    · exact absurd rfl hne
    · show Schema.flatten s ++ flattenL rest ≠ []
      intro hc
      rcases List.append_eq_nil.mp hc with ⟨hc1, _⟩
      exact flatten_ne_nil_of_wf (hl s (by simp)) hc1
  obtain ⟨u2, hof, hRK, hND, hKM, hIF, hNE⟩ := of_spec l
  rw [hof]
  have hRK' : ∀ p ∈ u2, Schema.reprStr p.2 = p.1 := fun p hp => (hRK p hp).1
  have hsrc : ∀ p ∈ u2, p.2 ∈ flattenL l := fun p hp => (hRK p hp).2
  rcases u2 with _ | ⟨⟨k, s⟩, rest⟩
  · exact absurd rfl (hNE hflne)
  · rcases rest with _ | ⟨q, rest2⟩
    · exact hflwf s (hsrc (k, s) (by simp))
    · show Schema.wf (Schema.union
        (sortBy (fun a b => strLe (Schema.reprStr a) (Schema.reprStr b))
          (((k, s) :: q :: rest2).map (fun p => p.2)))) = true
      set u2 := (k, s) :: q :: rest2 with hu2
      set vs := sortBy (fun a b => strLe (Schema.reprStr a) (Schema.reprStr b))
        (u2.map (fun p => p.2)) with hvs
      have hmemvs : ∀ t, t ∈ vs ↔ t ∈ u2.map (fun p => p.2) := by
        intro t
        rw [hvs, mem_sortBy]
      show (wfL vs && _ && _ && _ && _) = true
      rw [Bool.and_eq_true, Bool.and_eq_true, Bool.and_eq_true, Bool.and_eq_true]
      refine ⟨⟨⟨⟨?_, ?_⟩, ?_⟩, ?_⟩, ?_⟩
      · rw [wfL_iff]
        intro t ht
        rcases List.mem_map.mp ((hmemvs t).mp ht) with ⟨p, hp, hpt⟩
        exact ⟨hpt ▸ flattenL_not_union l p.2 (hsrc p hp),
          hpt ▸ hflwf p.2 (hsrc p hp)⟩
      · have hlen : vs.length = u2.length := by
          rw [hvs]
          rw [(sortBy_perm _ _).length_eq, List.length_map]
        rw [decide_eq_true_eq, hlen, hu2]
        simp
      · rw [bool_not_eq_true, Bool.and_eq_false_iff]
        by_cases hi : Schema.int ∈ u2.map (fun p => p.2)
        · right
          rw [Bool.eq_false_iff]
          intro hc
          have : Schema.float ∈ vs := (listContains_iff vs .float).mp hc
          exact hIF ⟨hi, (hmemvs _).mp this⟩
        · left
          rw [Bool.eq_false_iff]
          intro hc
          have : Schema.int ∈ vs := (listContains_iff vs .int).mp hc
          exact hi ((hmemvs _).mp this)
      · rw [allDistinct_iff, sortByRepr_map_repr u2 hRK']
        exact (sortBy_perm strLe _).nodup_iff.mpr hND
      · apply chainLeB_of_pairwise
        rw [sortByRepr_map_repr u2 hRK']
        exact pairwise_sortBy strLe_total (fun a b c => strLe_trans) _

theorem of_normal (l : List Schema) (hl : ∀ s ∈ l, s.normal = true) :
    (UnionSchema.of l).normal = true := by
  have hfln : ∀ t ∈ flattenL l, t.normal = true := flattenL_normal l hl
  obtain ⟨u2, hof, hRK, _, _, _, _⟩ := of_spec l
  rw [hof]
  have hsrc : ∀ p ∈ u2, p.2 ∈ flattenL l := fun p hp => (hRK p hp).2
  rcases u2 with _ | ⟨⟨k, s⟩, rest⟩
  · rfl
  · rcases rest with _ | ⟨q, rest2⟩
    · exact hfln s (hsrc (k, s) (by simp))
    · show normL (sortBy _ (((k, s) :: q :: rest2).map (fun p => p.2))) = true
      rw [normL_iff]
      intro t ht
      rcases List.mem_map.mp ((mem_sortBy _ _ t).mp ht) with ⟨p, hp, hpt⟩
      exact hpt ▸ hfln p.2 (hsrc p hp)

/-! ### Merge preservation lemmas -/

theorem baseMerge_wf {a b : Schema} (ha : a.wf = true) (hb : b.wf = true) :
    (Schema.baseMerge a b).wf = true := by
  rw [Schema.baseMerge]
  split
  · exact ha
  · exact of_wf [a, b] (by
      intro s hs
      rcases List.mem_cons.mp hs with rfl | hs
      · exact ha
      · rw [List.mem_singleton.mp hs]
        exact hb) (by simp)

theorem baseMerge_normal {a b : Schema} (ha : a.normal = true) (hb : b.normal = true) :
    (Schema.baseMerge a b).normal = true := by
  rw [Schema.baseMerge]
  split
  · exact ha
  · exact of_normal [a, b] (by
      intro s hs
      rcases List.mem_cons.mp hs with rfl | hs
      · exact ha
      · rw [List.mem_singleton.mp hs]
        exact hb)

theorem baseMerge_repr_comm (a b : Schema) :
    Schema.reprStr (Schema.baseMerge a b) = Schema.reprStr (Schema.baseMerge b a) := by
  by_cases hab : a = b
  · subst hab
    rfl
  · rw [Schema.baseMerge, Schema.baseMerge]
    rw [if_neg (by rw [Bool.not_eq_true, Bool.eq_false_iff]; intro hc; exact hab (Schema.beq_eq _ _ hc)),
      if_neg (by rw [Bool.not_eq_true, Bool.eq_false_iff]; intro hc; exact hab (Schema.beq_eq _ _ hc).symm)]
    exact of_swap_repr a b

theorem lookupS_mem : ∀ (ps : List (String × Schema)) (k : String) (w : Schema),
    lookupS ps k = some w → (k, w) ∈ ps := by
  intro ps k w
  induction ps with
  | nil => intro h; cases h
  | cons p rest ih =>
    rcases p with ⟨k', v'⟩
    intro h
    rw [lookupS] at h
    split at h
    · rename_i hk
      cases h
      subst hk
      simp
    · simp [ih h]

theorem mergeProps_mem : ∀ (ps ps' : List (String × Schema)) (p : String × Schema),
    p ∈ mergeProps ps ps' →
    ∃ q ∈ ps, p.1 = q.1
      ∧ p.2 = (match lookupS ps' q.1 with
        | some w => q.2.merge w
        | Option.none => q.2) := by
  intro ps ps' p
  induction ps with
  | nil => intro h; cases h
  | cons q rest ih =>
    rcases q with ⟨k, v⟩
    intro h
    rcases List.mem_cons.mp h with rfl | h
    · exact ⟨(k, v), by simp, rfl, rfl⟩
    · rcases ih h with ⟨q', hq', h1, h2⟩
      exact ⟨q', by simp [hq'], h1, h2⟩

theorem mergeProps_keys : ∀ (ps ps' : List (String × Schema)),
    (mergeProps ps ps').map (fun p => p.1) = ps.map (fun p => p.1) := by
  intro ps ps'
  induction ps with
  | nil => rfl
  | cons q rest ih =>
    rcases q with ⟨k, v⟩
    show k :: (mergeProps rest ps').map (fun p => p.1) = _
    rw [ih]
    rfl

theorem hasKeyS_iff (ps : List (String × Schema)) (k : String) :
    hasKeyS ps k = true ↔ k ∈ ps.map (fun p => p.1) := by
  rw [hasKeyS]
  induction ps with
  | nil => simp [lookupS]
  | cons p rest ih =>
    rcases p with ⟨k', v'⟩
    rw [lookupS]
    split
    · rename_i hk
      subst hk
      simp
    · rename_i hk
      rw [ih]
      simp only [List.map_cons, List.mem_cons]
      constructor
      · exact Or.inr
      · rintro (rfl | h)
        · exact absurd rfl hk
        · exact h

theorem strSorted_nodup {l : List String} (h : StrSorted l) : l.Nodup :=
  h.imp (fun hab => strLt_ne hab)

theorem sizeOf_snd_lt_of_mem {ps : List (String × Schema)} {q : String × Schema}
    (h : q ∈ ps) : sizeOf q.2 < sizeOf ps := by
  have h1 := List.sizeOf_lt_of_mem h
  rcases q with ⟨k, v⟩
  simp only [Prod.mk.sizeOf_spec] at h1
  simp only []
  omega

theorem merge_wf_aux : ∀ n : Nat, ∀ a b : Schema, sizeOf a + sizeOf b ≤ n →
    a.wf = true → b.wf = true → (a.merge b).wf = true := by
  intro n
  induction n using Nat.strong_induction_on with
  | _ n IH =>
    intro a b hn ha hb
    cases a <;> cases b
    case array.array i k i' k' =>
      show Schema.wf (if k = k' then .array (i.merge i') k else Schema.baseMerge _ _) = true
      split
      · show Schema.wf (i.merge i') = true
        have hs1 : sizeOf (Schema.array i k) = 1 + sizeOf i + sizeOf k :=
          Schema.array.sizeOf_spec i k
        have hs2 : sizeOf (Schema.array i' k') = 1 + sizeOf i' + sizeOf k' :=
          Schema.array.sizeOf_spec i' k'
        exact IH (sizeOf i + sizeOf i') (by omega) i i' le_rfl ha hb
      · exact baseMerge_wf ha hb
    case map.map k v k' v' =>
      have hs1 : sizeOf (Schema.map k v) = 1 + sizeOf k + sizeOf v :=
        Schema.map.sizeOf_spec k v
      have hs2 : sizeOf (Schema.map k' v') = 1 + sizeOf k' + sizeOf v' :=
        Schema.map.sizeOf_spec k' v'
      have ha' : (k.wf && v.wf) = true := ha
      have hb' : (k'.wf && v'.wf) = true := hb
      rw [Bool.and_eq_true] at ha' hb'
      show (Schema.wf (k.merge k') && Schema.wf (v.merge v')) = true
      rw [Bool.and_eq_true]
      exact ⟨IH (sizeOf k + sizeOf k') (by omega) k k' le_rfl ha'.1 hb'.1,
        IH (sizeOf v + sizeOf v') (by omega) v v' le_rfl ha'.2 hb'.2⟩
    case object.object ps os ps' os' =>
      have hs1 : sizeOf (Schema.object ps os) = 1 + sizeOf ps + sizeOf os :=
        Schema.object.sizeOf_spec ps os
      have hs2 : sizeOf (Schema.object ps' os') = 1 + sizeOf ps' + sizeOf os' :=
        Schema.object.sizeOf_spec ps' os'
      have ha' : wfP ps = true := ha
      have hb' : wfP ps' = true := hb
      show wfP (sortBy (fun p q => strLe p.1 q.1)
        (mergeProps ps ps' ++ ps'.filter (fun p => !(hasKeyS ps p.1)))) = true
      rw [wfP_iff]
      intro p hp
      rcases List.mem_append.mp ((mem_sortBy _ _ p).mp hp) with hp | hp
      · rcases mergeProps_mem ps ps' p hp with ⟨q, hq, _, hval⟩
        have hqwf : q.2.wf = true := (wfP_iff ps).mp ha' q hq
        rcases hlk : lookupS ps' q.1 with _ | w
        · rw [hlk] at hval
          rw [hval]
          exact hqwf
        · rw [hlk] at hval
          rw [hval]
          have hwmem : (q.1, w) ∈ ps' := lookupS_mem ps' q.1 w hlk
          have hwwf : w.wf = true := (wfP_iff ps').mp hb' (q.1, w) hwmem
          have hb1 : sizeOf q.2 < sizeOf ps := sizeOf_snd_lt_of_mem hq
          have hb2 : sizeOf w < sizeOf ps' := by
            have := sizeOf_snd_lt_of_mem hwmem
            simpa using this
          exact IH (sizeOf q.2 + sizeOf w) (by omega) q.2 w le_rfl hqwf hwwf
      · have : p ∈ ps' := List.mem_of_mem_filter hp
        exact (wfP_iff ps').mp hb' p this
    all_goals exact baseMerge_wf ha hb

theorem merge_wf {a b : Schema} (ha : a.wf = true) (hb : b.wf = true) :
    (a.merge b).wf = true :=
  merge_wf_aux (sizeOf a + sizeOf b) a b le_rfl ha hb

theorem merge_normal_aux : ∀ n : Nat, ∀ a b : Schema, sizeOf a + sizeOf b ≤ n →
    a.normal = true → b.normal = true → (a.merge b).normal = true := by
  intro n
  induction n using Nat.strong_induction_on with
  | _ n IH =>
    intro a b hn ha hb
    cases a <;> cases b
    case array.array i k i' k' =>
      show Schema.normal (if k = k' then .array (i.merge i') k else Schema.baseMerge _ _) = true
      split
      · show Schema.normal (i.merge i') = true
        have hs1 : sizeOf (Schema.array i k) = 1 + sizeOf i + sizeOf k :=
          Schema.array.sizeOf_spec i k
        have hs2 : sizeOf (Schema.array i' k') = 1 + sizeOf i' + sizeOf k' :=
          Schema.array.sizeOf_spec i' k'
        exact IH (sizeOf i + sizeOf i') (by omega) i i' le_rfl ha hb
      · exact baseMerge_normal ha hb
    case map.map k v k' v' =>
      have hs1 : sizeOf (Schema.map k v) = 1 + sizeOf k + sizeOf v :=
        Schema.map.sizeOf_spec k v
      have hs2 : sizeOf (Schema.map k' v') = 1 + sizeOf k' + sizeOf v' :=
        Schema.map.sizeOf_spec k' v'
      have ha' : (k.normal && v.normal) = true := ha
      have hb' : (k'.normal && v'.normal) = true := hb
      rw [Bool.and_eq_true] at ha' hb'
      show (Schema.normal (k.merge k') && Schema.normal (v.merge v')) = true
      rw [Bool.and_eq_true]
      exact ⟨IH (sizeOf k + sizeOf k') (by omega) k k' le_rfl ha'.1 hb'.1,
        IH (sizeOf v + sizeOf v') (by omega) v v' le_rfl ha'.2 hb'.2⟩
    case object.object ps os ps' os' =>
      have hs1 : sizeOf (Schema.object ps os) = 1 + sizeOf ps + sizeOf os :=
        Schema.object.sizeOf_spec ps os
      have hs2 : sizeOf (Schema.object ps' os') = 1 + sizeOf ps' + sizeOf os' :=
        Schema.object.sizeOf_spec ps' os'
      have ha' : (chainLtB (ps.map (fun p => p.1)) && chainLtB os && normP ps) = true := ha
      have hb' : (chainLtB (ps'.map (fun p => p.1)) && chainLtB os' && normP ps') = true := hb
      rw [Bool.and_eq_true, Bool.and_eq_true] at ha' hb'
      set W := mergeProps ps ps' ++ ps'.filter (fun p => !(hasKeyS ps p.1)) with hW
      have hWkeys_nodup : (W.map (fun p => p.1)).Nodup := by
        rw [hW, List.map_append, List.nodup_append]
        refine ⟨?_, ?_, ?_⟩
        · rw [mergeProps_keys]
          exact strSorted_nodup ((chainLtB_iff _).mp ha'.1.1)
        · exact List.Nodup.sublist
            (List.Sublist.map _ (List.filter_sublist _))
            (strSorted_nodup ((chainLtB_iff _).mp hb'.1.1))
        · intro k hk1 hk2
          rw [mergeProps_keys] at hk1
          rcases List.mem_map.mp hk2 with ⟨p, hp, hpk⟩
          rcases List.mem_filter.mp hp with ⟨_, hflt⟩
          rw [bool_not_eq_true] at hflt
          rw [← hpk] at hk1
          rw [(hasKeyS_iff ps p.1).mpr hk1] at hflt
          cases hflt
      show (chainLtB ((sortBy (fun p q => strLe p.1 q.1) W).map (fun p => p.1))
        && chainLtB (sortDedup _) && normP (sortBy (fun p q => strLe p.1 q.1) W)) = true
      rw [Bool.and_eq_true, Bool.and_eq_true]
      refine ⟨⟨?_, ?_⟩, ?_⟩
      · rw [chainLtB_iff]
        apply strSorted_of_le_nodup
        · exact List.pairwise_map.mpr
            (pairwise_sortBy (fun p q => strLe_total p.1 q.1)
              (fun p q r => strLe_trans) W)
        · exact ((sortBy_perm _ W).map (fun p => p.1)).nodup_iff.mpr hWkeys_nodup
      · rw [chainLtB_iff]
        exact sorted_sortDedup _
      · rw [normP_iff]
        intro p hp
        rcases List.mem_append.mp ((mem_sortBy _ _ p).mp hp) with hp | hp
        · rcases mergeProps_mem ps ps' p hp with ⟨q, hq, _, hval⟩
          have hqn : q.2.normal = true := (normP_iff ps).mp ha'.2 q hq
          rcases hlk : lookupS ps' q.1 with _ | w
          · rw [hlk] at hval
            rw [hval]
            exact hqn
          · rw [hlk] at hval
            rw [hval]
            have hwmem : (q.1, w) ∈ ps' := lookupS_mem ps' q.1 w hlk
            have hwn : w.normal = true := (normP_iff ps').mp hb'.2 (q.1, w) hwmem
            have hb1 : sizeOf q.2 < sizeOf ps := sizeOf_snd_lt_of_mem hq
            have hb2 : sizeOf w < sizeOf ps' := by
              have := sizeOf_snd_lt_of_mem hwmem
              simpa using this
            exact IH (sizeOf q.2 + sizeOf w) (by omega) q.2 w le_rfl hqn hwn
        · exact (normP_iff ps').mp hb'.2 p (List.mem_of_mem_filter hp)
    all_goals exact baseMerge_normal ha hb

theorem merge_normal {a b : Schema} (ha : a.normal = true) (hb : b.normal = true) :
    (a.merge b).normal = true :=
  merge_normal_aux (sizeOf a + sizeOf b) a b le_rfl ha hb

/-! ### Inference preserves the union invariants -/

theorem inferProp_val_eq (v : Value) :
    (match v with | Value.none => Schema.null | w => _infer_single w)
      = _infer_single v := by
  cases v <;> rfl

theorem inferPropsD_cons (k v : Value) (rest : List (Value × Value)) :
    inferPropsD ((k, v) :: rest)
      = (strKeyOf k, _infer_single v) :: inferPropsD rest := by
  cases v <;> rfl

mutual
theorem infer_wf : ∀ v : Value, (_infer_single v).wf = true
  | .none => rfl
  | .bool _ => rfl
  | .int _ => rfl
  | .float _ => rfl
  | .str _ => rfl
  | .bytes _ => rfl
  | .date _ => rfl
  | .datetime _ => rfl
  | .dict entries => by
    show Schema.wf (if allStrKeys entries then _ else _) = true
    split
    · show wfP (sortBy _ (inferPropsD entries)) = true
      rw [wfP_iff]
      intro p hp
      exact inferPropsD_wf entries p ((mem_sortBy _ _ p).mp hp)
    · have hspec := inferMapAux_wf entries Option.none Option.none
        (by intro s h; cases h) (by intro s h; cases h)
      rcases hm : inferMapAux entries Option.none Option.none with ⟨ks, vso⟩
      rw [hm] at hspec
      cases ks with
      | none => rfl
      | some ks' =>
        show (Schema.wf ks' && Schema.wf (vso.getD .null)) = true
        rw [Bool.and_eq_true]
        refine ⟨hspec.1 ks' rfl, ?_⟩
        cases vso with
        | none => rfl
        | some vs' => exact hspec.2 vs' rfl
  | .list xs => by
    show Schema.wf ((inferItems xs Option.none).getD .null) = true
    rcases hi : inferItems xs Option.none with _ | s
    · rfl
    · exact inferItems_wf xs Option.none (by intro s h; cases h) s hi
  | .tuple xs => by
    show Schema.wf ((inferItems xs Option.none).getD .null) = true
    rcases hi : inferItems xs Option.none with _ | s
    · rfl
    · exact inferItems_wf xs Option.none (by intro s h; cases h) s hi
  | .set xs => by
    show Schema.wf ((inferItems xs Option.none).getD .null) = true
    rcases hi : inferItems xs Option.none with _ | s
    · rfl
    · exact inferItems_wf xs Option.none (by intro s h; cases h) s hi
  | .frozenset xs => by
    show Schema.wf ((inferItems xs Option.none).getD .null) = true
    rcases hi : inferItems xs Option.none with _ | s
    · rfl
    · exact inferItems_wf xs Option.none (by intro s h; cases h) s hi
  | .objval attrs => by
    show Schema.wf (if allStrKeys attrs then _ else _) = true
    split
    · show wfP (sortBy _ (inferPropsD attrs)) = true
      rw [wfP_iff]
      intro p hp
      exact inferPropsD_wf attrs p ((mem_sortBy _ _ p).mp hp)
    · have hspec := inferMapAux_wf attrs Option.none Option.none
        (by intro s h; cases h) (by intro s h; cases h)
      rcases hm : inferMapAux attrs Option.none Option.none with ⟨ks, vso⟩
      rw [hm] at hspec
      cases ks with
      | none => rfl
      | some ks' =>
        show (Schema.wf ks' && Schema.wf (vso.getD .null)) = true
        rw [Bool.and_eq_true]
        refine ⟨hspec.1 ks' rfl, ?_⟩
        cases vso with
        | none => rfl
        | some vs' => exact hspec.2 vs' rfl
  | .foreign _ => rfl

theorem inferPropsD_wf : ∀ l : List (Value × Value),
    ∀ p ∈ inferPropsD l, p.2.wf = true
  | [], p, hp => absurd hp (List.not_mem_nil p)
  | (k, v) :: rest, p, hp => by
    rw [inferPropsD_cons] at hp
    rcases List.mem_cons.mp hp with rfl | hp'
    · exact infer_wf v
    · exact inferPropsD_wf rest p hp'


theorem inferMapAux_wf : ∀ (l : List (Value × Value)) (ks vs : Option Schema),
    (∀ s, ks = some s → s.wf = true) → (∀ s, vs = some s → s.wf = true) →
    (∀ s, (inferMapAux l ks vs).1 = some s → s.wf = true)
      ∧ (∀ s, (inferMapAux l ks vs).2 = some s → s.wf = true)
  | [], ks, vs, hks, hvs => ⟨hks, hvs⟩
  | (k, v) :: rest, ks, vs, hks, hvs => by
    show (∀ s, (inferMapAux rest _ _).1 = some s → s.wf = true)
      ∧ (∀ s, (inferMapAux rest _ _).2 = some s → s.wf = true)
    apply inferMapAux_wf rest
    · intro s h
      cases h
      cases ks with
      | none => exact infer_wf k
      | some s0 => exact merge_wf (hks s0 rfl) (infer_wf k)
    · intro s h
      cases h
      cases vs with
      | none => exact infer_wf v
      | some s0 => exact merge_wf (hvs s0 rfl) (infer_wf v)

theorem inferItems_wf : ∀ (l : List Value) (acc : Option Schema),
    (∀ s, acc = some s → s.wf = true) →
    ∀ s, inferItems l acc = some s → s.wf = true
  | [], acc, hacc, s, h => hacc s h
  | x :: rest, acc, hacc, s, h => by
    refine inferItems_wf rest _ ?_ s h
    intro s' h'
    cases h'
    cases acc with
    | none => exact infer_wf x
    | some s0 => exact merge_wf (hacc s0 rfl) (infer_wf x)
end

theorem deduceAux_wf : ∀ (l : List Value) (merged : Option Schema) (allNull : Bool),
    (∀ s, merged = some s → s.wf = true) →
    (deduceAux l merged allNull).wf = true := by
  intro l
  induction l with
  | nil =>
    intro merged allNull hm
    show Schema.wf (if allNull then .null else _) = true
    split
    · rfl
    · cases merged with
      | none => rfl
      | some m => exact hm m rfl
  | cons v rest ih =>
    intro merged allNull hm
    refine ih _ _ ?_
    intro s h
    cases h
    cases merged with
    | none => exact infer_wf v
    | some m => exact merge_wf (hm m rfl) (infer_wf v)

/-- Claim C2: every union node of a schema produced by merge (of schemas
already satisfying the invariants) or by inference has no union variant,
pairwise distinct canonical representations, at least two variants, never
Int and Float together, and variants sorted by canonical representation —
the predicate `Schema.wf` checks exactly these conditions at every node. -/
theorem claim_C2_union_invariants :
    (∀ a b : Schema, a.wf = true → b.wf = true → (a.merge b).wf = true)
    ∧ (∀ v : Value, (_infer_single v).wf = true)
    ∧ (∀ vs : List Value, (deduce_schema vs).wf = true) := by
  refine ⟨fun a b ha hb => merge_wf ha hb, infer_wf, ?_⟩
  intro vs
  cases vs with
  | nil => rfl
  | cons v rest =>
    exact deduceAux_wf (v :: rest) Option.none true (by intro s h; cases h)

/-- Claim C2, witness: the invariants hold for two concrete schemas and
are preserved by their merge. -/
theorem claim_C2_witness :
    (Schema.union [.int, .string]).wf = true
    ∧ (Schema.object [("a", .union [.bool, .int])] []).wf = true
    ∧ ((Schema.union [.int, .string]).merge
        (.object [("a", .union [.bool, .int])] [])).wf = true :=
  ⟨by decide, by decide,
    claim_C2_union_invariants.1 _ _ (by decide) (by decide)⟩

/-! ### Inference produces canonical representations -/

theorem inferPropsD_keys : ∀ l : List (Value × Value),
    (inferPropsD l).map (fun p => p.1) = l.map (fun p => strKeyOf p.1) := by
  intro l
  induction l with
  | nil => rfl
  | cons p rest ih =>
    rcases p with ⟨k, v⟩
    rw [inferPropsD_cons]
    show strKeyOf k :: (inferPropsD rest).map (fun p => p.1) = _
    rw [ih]
    rfl

theorem validVE_mem : ∀ l : List (Value × Value), validVE l = true →
    ∀ p ∈ l, p.1.valid = true ∧ p.2.valid = true := by
  intro l
  induction l with
  | nil => intro _ p hp; cases hp
  | cons q rest ih =>
    rcases q with ⟨k, v⟩
    intro h p hp
    have h' : (k.valid && v.valid && validVE rest) = true := h
    rw [Bool.and_eq_true, Bool.and_eq_true] at h'
    rcases List.mem_cons.mp hp with rfl | hp
    · exact ⟨h'.1.1, h'.1.2⟩
    · exact ih h'.2 p hp

theorem validVL_mem : ∀ l : List Value, validVL l = true →
    ∀ v ∈ l, v.valid = true := by
  intro l
  induction l with
  | nil => intro _ v hv; cases hv
  | cons x rest ih =>
    intro h v hv
    have h' : (x.valid && validVL rest) = true := h
    rw [Bool.and_eq_true] at h'
    rcases List.mem_cons.mp hv with rfl | hv
    · exact h'.1
    · exact ih h'.2 v hv

theorem nodup_strKeys : ∀ l : List (Value × Value), allStrKeys l = true →
    keysDistinctV l = true → (l.map (fun p => strKeyOf p.1)).Nodup := by
  intro l
  induction l with
  | nil => intro _ _; simp
  | cons q rest ih =>
    rcases q with ⟨k, v⟩
    intro hstr hdis
    have hstr' : (k.isStr && rest.all (fun p => p.1.isStr)) = true := by
      have : allStrKeys ((k, v) :: rest) = true := hstr
      rw [allStrKeys, List.all_cons] at this
      exact this
    rw [Bool.and_eq_true] at hstr'
    have hdis' : (!(rest.any (fun p => p.1.beq k)) && keysDistinctV rest) = true := hdis
    rw [Bool.and_eq_true, bool_not_eq_true] at hdis'
    simp only [List.map_cons]
    refine List.nodup_cons.mpr ⟨?_, ih hstr'.2 hdis'.2⟩
    intro hc
    rcases List.mem_map.mp hc with ⟨p, hp, hpk⟩
    have hpstr : p.1.isStr = true := by
      have := List.all_eq_true.mp hstr'.2 p hp
      exact this
    have hkstr : k.isStr = true := hstr'.1
    rcases p with ⟨pk, pv⟩
    cases pk <;> simp [Value.isStr] at hpstr
    cases k <;> simp [Value.isStr] at hkstr
    rename_i s1 s2
    simp only [strKeyOf] at hpk
    have hbeqf := List.any_eq_false.mp
      (by rw [← hdis'.1]) ⟨Value.str s1, pv⟩ hp
    simp only at hbeqf
    have : (Value.str s1).beq (Value.str s2) = true := by
      show (s1 == s2) = true
      rw [beq_iff_eq]
      exact hpk
    exact hbeqf this

theorem ableKeyNodup (l : List (Value × Value))
    (h : ((inferPropsD l).map (fun p => p.1)).Nodup) :
    ((sortBy (fun p q : String × Schema => strLe p.1 q.1) (inferPropsD l)).map
      (fun p => p.1)).Nodup :=
  ((sortBy_perm (fun p q : String × Schema => strLe p.1 q.1)
    (inferPropsD l)).map (fun p : String × Schema => p.1)).nodup_iff.mpr h

mutual
theorem infer_normal : ∀ v : Value, v.valid = true → (_infer_single v).normal = true
  | .none, _ => rfl
  | .bool _, _ => rfl
  | .int _, _ => rfl
  | .float _, _ => rfl
  | .str _, _ => rfl
  | .bytes _, _ => rfl
  | .date _, _ => rfl
  | .datetime _, _ => rfl
  | .dict entries, hv => by
    have hv' : (keysDistinctV entries && validVE entries) = true := hv
    rw [Bool.and_eq_true] at hv'
    show Schema.normal (if allStrKeys entries then _ else _) = true
    split
    · rename_i hstr
      show (chainLtB ((sortBy _ (inferPropsD entries)).map (fun p => p.1))
        && chainLtB (sortDedup _) && normP (sortBy _ (inferPropsD entries))) = true
      rw [Bool.and_eq_true, Bool.and_eq_true]
      refine ⟨⟨?_, ?_⟩, ?_⟩
      · rw [chainLtB_iff]
        apply strSorted_of_le_nodup
        · exact List.pairwise_map.mpr
            (pairwise_sortBy (fun p q => strLe_total p.1 q.1)
              (fun p q r => strLe_trans) (inferPropsD entries))
        · refine ableKeyNodup entries ?_
          rw [inferPropsD_keys]
          exact nodup_strKeys entries hstr hv'.1
      · rw [chainLtB_iff]
        exact sorted_sortDedup _
      · rw [normP_iff]
        intro p hp
        exact inferPropsD_normal entries hv'.2 p ((mem_sortBy _ _ p).mp hp)
    · have hspec := inferMapAux_normal entries hv'.2 Option.none Option.none
        (by intro s h; cases h) (by intro s h; cases h)
      rcases hm : inferMapAux entries Option.none Option.none with ⟨ks, vso⟩
      rw [hm] at hspec
      cases ks with
      | none => rfl
      | some ks' =>
        show (Schema.normal ks' && Schema.normal (vso.getD .null)) = true
        rw [Bool.and_eq_true]
        refine ⟨hspec.1 ks' rfl, ?_⟩
        cases vso with
        | none => rfl
        | some vs' => exact hspec.2 vs' rfl
  | .list xs, hv => by
    show Schema.normal ((inferItems xs Option.none).getD .null) = true
    rcases hi : inferItems xs Option.none with _ | s
    · rfl
    · exact inferItems_normal xs hv Option.none (by intro s h; cases h) s hi
  | .tuple xs, hv => by
    show Schema.normal ((inferItems xs Option.none).getD .null) = true
    rcases hi : inferItems xs Option.none with _ | s
    · rfl
    · exact inferItems_normal xs hv Option.none (by intro s h; cases h) s hi
  | .set xs, hv => by
    show Schema.normal ((inferItems xs Option.none).getD .null) = true
    rcases hi : inferItems xs Option.none with _ | s
    · rfl
    · exact inferItems_normal xs hv Option.none (by intro s h; cases h) s hi
  | .frozenset xs, hv => by
    show Schema.normal ((inferItems xs Option.none).getD .null) = true
    rcases hi : inferItems xs Option.none with _ | s
    · rfl
    · exact inferItems_normal xs hv Option.none (by intro s h; cases h) s hi
  | .objval attrs, hv => by
    have hv' : (allStrKeys attrs && keysDistinctV attrs && validVE attrs) = true := hv
    rw [Bool.and_eq_true, Bool.and_eq_true] at hv'
    show Schema.normal (if allStrKeys attrs then _ else _) = true
    split
    · rename_i hstr
      show (chainLtB ((sortBy _ (inferPropsD attrs)).map (fun p => p.1))
        && chainLtB (sortDedup _) && normP (sortBy _ (inferPropsD attrs))) = true
      rw [Bool.and_eq_true, Bool.and_eq_true]
      refine ⟨⟨?_, ?_⟩, ?_⟩
      · rw [chainLtB_iff]
        apply strSorted_of_le_nodup
        · exact List.pairwise_map.mpr
            (pairwise_sortBy (fun p q => strLe_total p.1 q.1)
              (fun p q r => strLe_trans) (inferPropsD attrs))
        · refine ableKeyNodup attrs ?_
          rw [inferPropsD_keys]
          exact nodup_strKeys attrs hstr hv'.1.2
      · rw [chainLtB_iff]
        exact sorted_sortDedup _
      · rw [normP_iff]
        intro p hp
        exact inferPropsD_normal attrs hv'.2 p ((mem_sortBy _ _ p).mp hp)
    · have hspec := inferMapAux_normal attrs hv'.2 Option.none Option.none
        (by intro s h; cases h) (by intro s h; cases h)
      rcases hm : inferMapAux attrs Option.none Option.none with ⟨ks, vso⟩
      rw [hm] at hspec
      cases ks with
      | none => rfl
      | some ks' =>
        show (Schema.normal ks' && Schema.normal (vso.getD .null)) = true
        rw [Bool.and_eq_true]
        refine ⟨hspec.1 ks' rfl, ?_⟩
        cases vso with
        | none => rfl
        | some vs' => exact hspec.2 vs' rfl
  | .foreign _, _ => rfl

theorem inferPropsD_normal : ∀ l : List (Value × Value), validVE l = true →
    ∀ p ∈ inferPropsD l, p.2.normal = true
  | [], _, p, hp => absurd hp (List.not_mem_nil p)
  | (k, v) :: rest, hval, p, hp => by
    have hval' : (k.valid && v.valid && validVE rest) = true := hval
    rw [Bool.and_eq_true, Bool.and_eq_true] at hval'
    rw [inferPropsD_cons] at hp
    rcases List.mem_cons.mp hp with rfl | hp'
    · exact infer_normal v hval'.1.2
    · exact inferPropsD_normal rest hval'.2 p hp'

theorem inferMapAux_normal : ∀ (l : List (Value × Value)), validVE l = true →
    ∀ (ks vs : Option Schema),
    (∀ s, ks = some s → s.normal = true) → (∀ s, vs = some s → s.normal = true) →
    (∀ s, (inferMapAux l ks vs).1 = some s → s.normal = true)
      ∧ (∀ s, (inferMapAux l ks vs).2 = some s → s.normal = true)
  | [], _, ks, vs, hks, hvs => ⟨hks, hvs⟩
  | (k, v) :: rest, hval, ks, vs, hks, hvs => by
    have hval' : (k.valid && v.valid && validVE rest) = true := hval
    rw [Bool.and_eq_true, Bool.and_eq_true] at hval'
    show (∀ s, (inferMapAux rest _ _).1 = some s → s.normal = true)
      ∧ (∀ s, (inferMapAux rest _ _).2 = some s → s.normal = true)
    apply inferMapAux_normal rest hval'.2
    · intro s h
      cases h
      cases ks with
      | none => exact infer_normal k hval'.1.1
      | some s0 => exact merge_normal (hks s0 rfl) (infer_normal k hval'.1.1)
    · intro s h
      cases h
      cases vs with
      | none => exact infer_normal v hval'.1.2
      | some s0 => exact merge_normal (hvs s0 rfl) (infer_normal v hval'.1.2)

theorem inferItems_normal : ∀ (l : List Value), validVL l = true →
    ∀ (acc : Option Schema),
    (∀ s, acc = some s → s.normal = true) →
    ∀ s, inferItems l acc = some s → s.normal = true
  | [], _, acc, hacc, s, h => hacc s h
  | x :: rest, hval, acc, hacc, s, h => by
    have hval' : (x.valid && validVL rest) = true := hval
    rw [Bool.and_eq_true] at hval'
    refine inferItems_normal rest hval'.2 _ ?_ s h
    intro s' h'
    cases h'
    cases acc with
    | none => exact infer_normal x hval'.1
    | some s0 => exact merge_normal (hacc s0 rfl) (infer_normal x hval'.1)
end

/-! ### Idempotence of merge -/

theorem lookupS_of_mem_nodup : ∀ (ps : List (String × Schema)),
    (ps.map (fun p => p.1)).Nodup → ∀ k v, (k, v) ∈ ps → lookupS ps k = some v := by
  intro ps
  induction ps with
  | nil => intro _ k v h; cases h
  | cons q rest ih =>
    rcases q with ⟨k0, v0⟩
    intro hnd k v h
    rw [List.map_cons, List.nodup_cons] at hnd
    rw [lookupS]
    rcases List.mem_cons.mp h with heq | hmem
    · rw [Prod.mk.injEq] at heq
      rw [if_pos heq.1.symm, heq.2]
    · split
      · rename_i hk
        subst hk
        exact absurd (List.mem_map.mpr ⟨(k0, v), hmem, rfl⟩) hnd.1
      · exact ih hnd.2 k v hmem

theorem insertBy_cons_of_le {α : Type} {le : α → α → Bool} {a b : α}
    (h : le a b = true) (t : List α) : insertBy le a (b :: t) = a :: b :: t := by
  rw [insertBy, if_pos h]

theorem sortBy_of_pairwise {α : Type} {le : α → α → Bool} :
    ∀ {l : List α}, l.Pairwise (fun x y => le x y = true) → sortBy le l = l := by
  intro l
  induction l with
  | nil => intro _; rfl
  | cons a t ih =>
    intro h
    rw [List.pairwise_cons] at h
    show insertBy le a (sortBy le t) = a :: t
    rw [ih h.2]
    cases t with
    | nil => rfl
    | cons b t' => exact insertBy_cons_of_le (h.1 b (List.mem_cons_self b t')) t'

theorem filter_hasKey_self (ps : List (String × Schema)) :
    ps.filter (fun p => !(hasKeyS ps p.1)) = [] := by
  rw [List.filter_eq_nil_iff]
  intro p hp
  rw [bool_not_eq_true, (hasKeyS_iff ps p.1).mpr (List.mem_map.mpr ⟨p, hp, rfl⟩)]
  intro h
  cases h

theorem mergeProps_self_of : ∀ (ps0 qs : List (String × Schema)),
    (∀ p ∈ ps0, lookupS qs p.1 = some p.2 ∧ p.2.merge p.2 = p.2) →
    mergeProps ps0 qs = ps0 := by
  intro ps0 qs
  induction ps0 with
  | nil => intro _; rfl
  | cons p rest ih =>
    rcases p with ⟨k, v⟩
    intro h
    have hp := h (k, v) (List.mem_cons_self _ _)
    rw [mergeProps, hp.1]
    show (k, v.merge v) :: mergeProps rest qs = _
    rw [hp.2, ih (fun q hq => h q (List.mem_cons_of_mem _ hq))]

theorem sortDedup_append_self {os : List String} (h : StrSorted os) :
    sortDedup (os ++ os) = os := by
  have h1 : ∀ a : String, a ∈ os ++ os ↔ a ∈ os := fun a => by
    rw [List.mem_append, or_self]
  rw [sortDedup_eq_of_mem h1, sortDedup_of_sorted h]

theorem merge_self_aux : ∀ n : Nat, ∀ S : Schema, sizeOf S ≤ n →
    S.normal = true → S.merge S = S := by
  intro n
  induction n using Nat.strong_induction_on with
  | _ n IH =>
    intro S hn hS
    cases S
    case array i k =>
      show (if k = k then Schema.array (i.merge i) k else _) = _
      rw [if_pos rfl]
      have hs : sizeOf (Schema.array i k) = 1 + sizeOf i + sizeOf k :=
        Schema.array.sizeOf_spec i k
      rw [IH (sizeOf i) (by omega) i le_rfl hS]
    case map k v =>
      have hs : sizeOf (Schema.map k v) = 1 + sizeOf k + sizeOf v :=
        Schema.map.sizeOf_spec k v
      have h' : (k.normal && v.normal) = true := hS
      rw [Bool.and_eq_true] at h'
      show Schema.map (k.merge k) (v.merge v) = _
      rw [IH (sizeOf k) (by omega) k le_rfl h'.1,
        IH (sizeOf v) (by omega) v le_rfl h'.2]
    case object ps os =>
      have hs : sizeOf (Schema.object ps os) = 1 + sizeOf ps + sizeOf os :=
        Schema.object.sizeOf_spec ps os
      have h' : (chainLtB (ps.map (fun p => p.1)) && chainLtB os && normP ps) = true := hS
      rw [Bool.and_eq_true, Bool.and_eq_true] at h'
      have hkeys : StrSorted (ps.map (fun p => p.1)) := (chainLtB_iff _).mp h'.1.1
      have hnd : (ps.map (fun p => p.1)).Nodup := strSorted_nodup hkeys
      show Schema.object
        (sortBy (fun p q => strLe p.1 q.1)
          (mergeProps ps ps ++ ps.filter (fun p => !(hasKeyS ps p.1))))
        (sortDedup
          ((ps.filter (fun p => !(hasKeyS ps (Prod.fst p)))).map (fun p => p.1)
            ++ (ps.filter (fun p => !(hasKeyS ps p.1))).map (fun p => p.1)
            ++ os ++ os)) = _
      rw [filter_hasKey_self, List.map_nil, List.nil_append, List.nil_append,
        List.append_nil]
      rw [mergeProps_self_of ps ps (fun p hp =>
        ⟨by
          rcases p with ⟨k, v⟩
          exact lookupS_of_mem_nodup ps hnd k v hp,
        by
          have hb : sizeOf p.2 < sizeOf ps := sizeOf_snd_lt_of_mem hp
          exact IH (sizeOf p.2) (by omega) p.2 le_rfl ((normP_iff ps).mp h'.2 p hp)⟩)]
      rw [sortBy_of_pairwise
        ((List.pairwise_map.mp hkeys).imp (fun hlt => strLe_of_strLt hlt))]
      rw [sortDedup_append_self ((chainLtB_iff os).mp h'.1.2)]
    case union vs =>
      show Schema.baseMerge (Schema.union vs) (Schema.union vs) = _
      rw [Schema.baseMerge, if_pos (Schema.beq_refl _)]
    all_goals rfl

/-- C5: merge is idempotent: for every schema in canonical form (the
representation invariant the Python dict/set payloads guarantee), merging a
schema with itself returns the schema unchanged. -/
theorem claim_C5_idempotent (S : Schema) (h : S.normal = true) :
    S.merge S = S :=
  merge_self_aux (sizeOf S) S le_rfl h

/-- Witness for C5 at a concrete object-of-union schema. -/
theorem claim_C5_witness :
    (Schema.object [("a", Schema.union [Schema.float, Schema.string])] ["a"]).normal
        = true
      ∧ (Schema.object [("a", Schema.union [Schema.float, Schema.string])] ["a"]).merge
          (Schema.object [("a", Schema.union [Schema.float, Schema.string])] ["a"])
        = Schema.object [("a", Schema.union [Schema.float, Schema.string])] ["a"] :=
  ⟨by decide, claim_C5_idempotent _ (by decide)⟩

/-! ### Commutativity of merge up to canonical representation -/

theorem mergeProps_mem_of : ∀ (ps : List (String × Schema))
    (ps' : List (String × Schema)) (k : String) (v : Schema), (k, v) ∈ ps →
    (k, match lookupS ps' k with
      | some w => v.merge w
      | Option.none => v) ∈ mergeProps ps ps' := by
  intro ps ps' k v
  induction ps with
  | nil => intro h; cases h
  | cons q rest ih =>
    rcases q with ⟨k0, v0⟩
    intro h
    rw [mergeProps]
    rcases List.mem_cons.mp h with heq | hmem
    · rw [Prod.mk.injEq] at heq
      exact List.mem_cons.mpr (Or.inl (by rw [heq.1, heq.2]))
    · exact List.mem_cons_of_mem _ (ih hmem)

theorem hasKeyS_false_iff (ps : List (String × Schema)) (k : String) :
    hasKeyS ps k = false ↔ lookupS ps k = Option.none := by
  rw [hasKeyS]
  cases hl : lookupS ps k with
  | none => simp
  | some w => simp

theorem pairSorted_eq_of_mem : ∀ {l₁ l₂ : List (String × String)},
    l₁.Pairwise (fun p q => strLt p.1 q.1 = true) →
    l₂.Pairwise (fun p q => strLt p.1 q.1 = true) →
    (∀ p, p ∈ l₁ ↔ p ∈ l₂) → l₁ = l₂ := by
  intro l₁
  induction l₁ with
  | nil =>
    intro l₂ _ _ hm
    cases l₂ with
    | nil => rfl
    | cons b bs => exact absurd ((hm b).mpr (by simp)) (by simp)
  | cons a as ih =>
    intro l₂ h₁ h₂ hm
    cases l₂ with
    | nil => exact absurd ((hm a).mp (by simp)) (by simp)
    | cons b bs =>
      rcases List.pairwise_cons.mp h₁ with ⟨ha, has⟩
      rcases List.pairwise_cons.mp h₂ with ⟨hb, hbs⟩
      have hab : a = b := by
        rcases List.mem_cons.mp ((hm a).mp (by simp)) with h | h
        · exact h
        · rcases List.mem_cons.mp ((hm b).mpr (by simp)) with h' | h'
          · exact h'.symm
          · have h1 := ha b h'
            have h2 := hb a h
            rw [strLt_asymm h1] at h2
            cases h2
      subst hab
      have : as = bs := by
        apply ih has hbs
        intro c
        constructor
        · intro hc
          rcases List.mem_cons.mp ((hm c).mp (List.mem_cons_of_mem _ hc)) with rfl | h
          · exact absurd (ha c hc) (by simp [strLt_irrefl])
          · exact h
        · intro hc
          rcases List.mem_cons.mp ((hm c).mpr (List.mem_cons_of_mem _ hc)) with rfl | h
          · exact absurd (hb c hc) (by simp [strLt_irrefl])
          · exact h
      rw [this]

theorem pairSorted_of_le_nodup {l : List (String × String)}
    (h1 : l.Pairwise (fun p q => strLe p.1 q.1 = true))
    (h2 : (l.map (fun p => p.1)).Nodup) :
    l.Pairwise (fun p q => strLt p.1 q.1 = true) := by
  have h2' : l.Pairwise (fun p q => p.1 ≠ q.1) := List.pairwise_map.mp h2
  exact (h1.and h2').imp (fun hpq => strLt_of_strLe_ne hpq.1 hpq.2)

theorem reprStr_object (ps : List (String × Schema)) (os : List String) :
    Schema.reprStr (Schema.object ps os) =
      "\x7b" ++
        joinSep ", "
          ((sortBy (fun p q => strLe p.1 q.1) (reprP ps)).map
            (fun p => p.1 ++ (if os.contains p.1 then "?" else "") ++ ": " ++ p.2))
        ++ "\x7d" := rfl

theorem keys_reprP_sortBy (P : List (String × Schema)) :
    ((sortBy (fun p q : String × String => strLe p.1 q.1)
        (reprP (sortBy (fun p q : String × Schema => strLe p.1 q.1) P))).map
      (fun p => p.1)).Perm (P.map (fun p => p.1)) := by
  have p1 := (sortBy_perm (fun p q : String × String => strLe p.1 q.1)
    (reprP (sortBy (fun p q : String × Schema => strLe p.1 q.1) P))).map
      (fun p : String × String => p.1)
  have p2 := (sortBy_perm (fun p q : String × Schema => strLe p.1 q.1) P).map
    (fun p : String × Schema => p.1)
  refine p1.trans ?_
  rw [reprP_eq_map, List.map_map]
  exact p2

theorem mem_reprP_sortBy (P : List (String × Schema)) (p : String × String) :
    p ∈ sortBy (fun p q : String × String => strLe p.1 q.1)
        (reprP (sortBy (fun p q : String × Schema => strLe p.1 q.1) P))
      ↔ p ∈ P.map (fun q => (q.1, Schema.reprStr q.2)) := by
  rw [(sortBy_perm _ _).mem_iff, reprP_eq_map,
    ((sortBy_perm (fun p q : String × Schema => strLe p.1 q.1) P).map
      (fun q : String × Schema => (q.1, Schema.reprStr q.2))).mem_iff]

theorem mergeRender_mem (ps ps' : List (String × Schema))
    (hnd : (ps.map (fun p => p.1)).Nodup)
    (hcomm : ∀ v w, (∃ k, (k, v) ∈ ps ∧ (k, w) ∈ ps') →
      Schema.reprStr (v.merge w) = Schema.reprStr (w.merge v))
    (p : String × String)
    (hp : p ∈ (mergeProps ps ps' ++ ps'.filter (fun q => !(hasKeyS ps q.1))).map
      (fun q => (q.1, Schema.reprStr q.2))) :
    p ∈ (mergeProps ps' ps ++ ps.filter (fun q => !(hasKeyS ps' q.1))).map
      (fun q => (q.1, Schema.reprStr q.2)) := by
  rcases List.mem_map.mp hp with ⟨q, hq, hqp⟩
  rcases List.mem_append.mp hq with hq | hq
  · rcases mergeProps_mem ps ps' q hq with ⟨⟨k, v⟩, hkv, h1, h2⟩
    rcases hlk : lookupS ps' k with _ | w
    · rw [hlk] at h2
      apply List.mem_map.mpr
      refine ⟨(k, v), ?_, ?_⟩
      · apply List.mem_append.mpr
        right
        apply List.mem_filter.mpr
        refine ⟨hkv, ?_⟩
        rw [bool_not_eq_true, (hasKeyS_false_iff ps' k).mpr hlk]
      · rw [← hqp]
        show (k, Schema.reprStr v) = (q.1, Schema.reprStr q.2)
        rw [h1, h2]
    · rw [hlk] at h2
      have hw : (k, w) ∈ ps' := lookupS_mem ps' k w hlk
      have hv : lookupS ps k = some v := lookupS_of_mem_nodup ps hnd k v hkv
      apply List.mem_map.mpr
      refine ⟨(k, w.merge v), ?_, ?_⟩
      · apply List.mem_append.mpr
        left
        have hmm := mergeProps_mem_of ps' ps k w hw
        rw [hv] at hmm
        exact hmm
      · rw [← hqp]
        show (k, Schema.reprStr (w.merge v)) = (q.1, Schema.reprStr q.2)
        rw [h1, h2, hcomm v w ⟨k, hkv, hw⟩]
  · rcases List.mem_filter.mp hq with ⟨hq_mem, hflt⟩
    rcases q with ⟨k, v⟩
    rw [bool_not_eq_true] at hflt
    have hnone : lookupS ps k = Option.none := (hasKeyS_false_iff ps k).mp hflt
    apply List.mem_map.mpr
    refine ⟨(k, v), ?_, hqp⟩
    apply List.mem_append.mpr
    left
    have hmm := mergeProps_mem_of ps' ps k v hq_mem
    rw [hnone] at hmm
    exact hmm

theorem mergeResult_keys_nodup (ps ps' : List (String × Schema))
    (hnd : (ps.map (fun p => p.1)).Nodup)
    (hnd' : (ps'.map (fun p => p.1)).Nodup) :
    ((mergeProps ps ps' ++ ps'.filter (fun p => !(hasKeyS ps p.1))).map
      (fun p => p.1)).Nodup := by
  rw [List.map_append, List.nodup_append]
  refine ⟨?_, ?_, ?_⟩
  · rw [mergeProps_keys]
    exact hnd
  · exact List.Nodup.sublist (List.Sublist.map _ (List.filter_sublist _)) hnd'
  · intro k hk1 hk2
    rw [mergeProps_keys] at hk1
    rcases List.mem_map.mp hk2 with ⟨p, hp, hpk⟩
    rcases List.mem_filter.mp hp with ⟨_, hflt⟩
    rw [bool_not_eq_true] at hflt
    rw [← hpk] at hk1
    rw [(hasKeyS_iff ps p.1).mpr hk1] at hflt
    cases hflt

theorem merge_repr_comm_aux : ∀ n : Nat, ∀ a b : Schema, sizeOf a + sizeOf b ≤ n →
    a.normal = true → b.normal = true →
    Schema.reprStr (a.merge b) = Schema.reprStr (b.merge a) := by
  intro n
  induction n using Nat.strong_induction_on with
  | _ n IH =>
    intro a b hn ha hb
    cases a <;> cases b
    case array.array i k i' k' =>
      have hs1 : sizeOf (Schema.array i k) = 1 + sizeOf i + sizeOf k :=
        Schema.array.sizeOf_spec i k
      have hs2 : sizeOf (Schema.array i' k') = 1 + sizeOf i' + sizeOf k' :=
        Schema.array.sizeOf_spec i' k'
      show Schema.reprStr (if k = k' then Schema.array (i.merge i') k
          else Schema.baseMerge (Schema.array i k) (Schema.array i' k'))
        = Schema.reprStr (if k' = k then Schema.array (i'.merge i) k'
          else Schema.baseMerge (Schema.array i' k') (Schema.array i k))
      by_cases hk : k = k'
      · subst hk
        rw [if_pos rfl, if_pos rfl]
        show k.capStr ++ "[" ++ Schema.reprStr (i.merge i') ++ "]"
          = k.capStr ++ "[" ++ Schema.reprStr (i'.merge i) ++ "]"
        rw [IH (sizeOf i + sizeOf i') (by omega) i i' le_rfl ha hb]
      · rw [if_neg hk, if_neg (fun hc => hk hc.symm)]
        exact baseMerge_repr_comm _ _
    case map.map k v k' v' =>
      have hs1 : sizeOf (Schema.map k v) = 1 + sizeOf k + sizeOf v :=
        Schema.map.sizeOf_spec k v
      have hs2 : sizeOf (Schema.map k' v') = 1 + sizeOf k' + sizeOf v' :=
        Schema.map.sizeOf_spec k' v'
      have ha' : (k.normal && v.normal) = true := ha
      have hb' : (k'.normal && v'.normal) = true := hb
      rw [Bool.and_eq_true] at ha' hb'
      show "Map[" ++ Schema.reprStr (k.merge k') ++ " → " ++ Schema.reprStr (v.merge v') ++ "]"
        = "Map[" ++ Schema.reprStr (k'.merge k) ++ " → " ++ Schema.reprStr (v'.merge v) ++ "]"
      rw [IH (sizeOf k + sizeOf k') (by omega) k k' le_rfl ha'.1 hb'.1,
        IH (sizeOf v + sizeOf v') (by omega) v v' le_rfl ha'.2 hb'.2]
    case object.object ps os ps' os' =>
      have hs1 : sizeOf (Schema.object ps os) = 1 + sizeOf ps + sizeOf os :=
        Schema.object.sizeOf_spec ps os
      have hs2 : sizeOf (Schema.object ps' os') = 1 + sizeOf ps' + sizeOf os' :=
        Schema.object.sizeOf_spec ps' os'
      have ha' : (chainLtB (ps.map (fun p => p.1)) && chainLtB os && normP ps) = true := ha
      have hb' : (chainLtB (ps'.map (fun p => p.1)) && chainLtB os' && normP ps') = true := hb
      rw [Bool.and_eq_true, Bool.and_eq_true] at ha' hb'
      have hnd : (ps.map (fun p => p.1)).Nodup :=
        strSorted_nodup ((chainLtB_iff _).mp ha'.1.1)
      have hnd' : (ps'.map (fun p => p.1)).Nodup :=
        strSorted_nodup ((chainLtB_iff _).mp hb'.1.1)
      have hredA : (Schema.object ps os).merge (Schema.object ps' os')
          = Schema.object
            (sortBy (fun p q => strLe p.1 q.1)
              (mergeProps ps ps' ++ ps'.filter (fun p => !(hasKeyS ps p.1))))
            (sortDedup
              ((ps.filter (fun p => !(hasKeyS ps' p.1))).map (fun p => p.1)
                ++ (ps'.filter (fun p => !(hasKeyS ps p.1))).map (fun p => p.1)
                ++ os ++ os')) := rfl
      have hredB : (Schema.object ps' os').merge (Schema.object ps os)
          = Schema.object
            (sortBy (fun p q => strLe p.1 q.1)
              (mergeProps ps' ps ++ ps.filter (fun p => !(hasKeyS ps' p.1))))
            (sortDedup
              ((ps'.filter (fun p => !(hasKeyS ps p.1))).map (fun p => p.1)
                ++ (ps.filter (fun p => !(hasKeyS ps' p.1))).map (fun p => p.1)
                ++ os' ++ os)) := rfl
      rw [hredA, hredB, reprStr_object, reprStr_object]
      have hO : sortDedup
            ((ps.filter (fun p => !(hasKeyS ps' p.1))).map (fun p => p.1)
              ++ (ps'.filter (fun p => !(hasKeyS ps p.1))).map (fun p => p.1)
              ++ os ++ os')
          = sortDedup
            ((ps'.filter (fun p => !(hasKeyS ps p.1))).map (fun p => p.1)
              ++ (ps.filter (fun p => !(hasKeyS ps' p.1))).map (fun p => p.1)
              ++ os' ++ os) := by
        apply sortDedup_eq_of_mem
        intro x
        rw [List.mem_append, List.mem_append, List.mem_append,
          List.mem_append, List.mem_append, List.mem_append]
        tauto
      have hcommIH : ∀ v w, (∃ k, (k, v) ∈ ps ∧ (k, w) ∈ ps') →
          Schema.reprStr (v.merge w) = Schema.reprStr (w.merge v) := by
        rintro v w ⟨k, hv, hw⟩
        have b1 : sizeOf v < sizeOf ps := sizeOf_snd_lt_of_mem hv
        have b2 : sizeOf w < sizeOf ps' := sizeOf_snd_lt_of_mem hw
        exact IH (sizeOf v + sizeOf w) (by omega) v w le_rfl
          ((normP_iff ps).mp ha'.2 (k, v) hv) ((normP_iff ps').mp hb'.2 (k, w) hw)
      have hcommIH' : ∀ w v, (∃ k, (k, w) ∈ ps' ∧ (k, v) ∈ ps) →
          Schema.reprStr (w.merge v) = Schema.reprStr (v.merge w) := by
        rintro w v ⟨k, hw, hv⟩
        exact (hcommIH v w ⟨k, hv, hw⟩).symm
      have hndA := mergeResult_keys_nodup ps ps' hnd hnd'
      have hndB := mergeResult_keys_nodup ps' ps hnd' hnd
      have hsA := pairSorted_of_le_nodup
        (pairwise_sortBy (fun p q => strLe_total p.1 q.1)
          (fun p q r => strLe_trans)
          (reprP (sortBy (fun p q => strLe p.1 q.1)
            (mergeProps ps ps' ++ ps'.filter (fun p => !(hasKeyS ps p.1))))))
        ((keys_reprP_sortBy
          (mergeProps ps ps' ++ ps'.filter (fun p => !(hasKeyS ps p.1)))).nodup_iff.mpr hndA)
      have hsB := pairSorted_of_le_nodup
        (pairwise_sortBy (fun p q => strLe_total p.1 q.1)
          (fun p q r => strLe_trans)
          (reprP (sortBy (fun p q => strLe p.1 q.1)
            (mergeProps ps' ps ++ ps.filter (fun p => !(hasKeyS ps' p.1))))))
        ((keys_reprP_sortBy
          (mergeProps ps' ps ++ ps.filter (fun p => !(hasKeyS ps' p.1)))).nodup_iff.mpr hndB)
      have hL : sortBy (fun p q : String × String => strLe p.1 q.1)
          (reprP (sortBy (fun p q => strLe p.1 q.1)
            (mergeProps ps ps' ++ ps'.filter (fun p => !(hasKeyS ps p.1)))))
          = sortBy (fun p q : String × String => strLe p.1 q.1)
          (reprP (sortBy (fun p q => strLe p.1 q.1)
            (mergeProps ps' ps ++ ps.filter (fun p => !(hasKeyS ps' p.1))))) := by
        apply pairSorted_eq_of_mem hsA hsB
        intro p
        rw [mem_reprP_sortBy, mem_reprP_sortBy]
        exact ⟨mergeRender_mem ps ps' hnd hcommIH p,
          mergeRender_mem ps' ps hnd' hcommIH' p⟩
      rw [hL, hO]
    all_goals exact baseMerge_repr_comm _ _

/-- C6: merge is commutative up to canonical representation: for schemas in
canonical form (the representation invariant the Python dict/set payloads
guarantee), `schema_repr (merge a b)` and `schema_repr (merge b a)` agree. -/
theorem claim_C6_commutative (a b : Schema)
    (ha : a.normal = true) (hb : b.normal = true) :
    schema_repr (a.merge b) = schema_repr (b.merge a) :=
  merge_repr_comm_aux (sizeOf a + sizeOf b) a b le_rfl ha hb

/-- Witness for C6 at concrete object schemas with overlapping keys. -/
theorem claim_C6_witness :
    ((Schema.object [("a", Schema.int), ("b", Schema.string)] []).normal = true
      ∧ (Schema.object [("a", Schema.float)] ["a"]).normal = true)
    ∧ schema_repr ((Schema.object [("a", Schema.int), ("b", Schema.string)] []).merge
        (Schema.object [("a", Schema.float)] ["a"]))
      = schema_repr ((Schema.object [("a", Schema.float)] ["a"]).merge
        (Schema.object [("a", Schema.int), ("b", Schema.string)] [])) :=
  ⟨⟨by decide, by decide⟩,
    claim_C6_commutative _ _ (by decide) (by decide)⟩

/-- C1 (corrected form): for two samples, the deduced schema is
order-independent up to canonical representation: swapping the two samples
leaves `schema_repr (deduce_schema ...)` unchanged.  (The full claim, order
independence of the fold for arbitrarily many samples up to structural
equality, is refuted by `claim_C1_counterexample`.) -/
theorem claim_C1_two_sample_swap (a b : Value)
    (ha : a.valid = true) (hb : b.valid = true) :
    schema_repr (deduce_schema [a, b]) = schema_repr (deduce_schema [b, a]) := by
  show schema_repr
      (if (true && (_infer_single a).beq Schema.null)
          && (_infer_single b).beq Schema.null then Schema.null
        else (_infer_single a).merge (_infer_single b))
    = schema_repr
      (if (true && (_infer_single b).beq Schema.null)
          && (_infer_single a).beq Schema.null then Schema.null
        else (_infer_single b).merge (_infer_single a))
  cases hA : (_infer_single a).beq Schema.null
    <;> cases hB : (_infer_single b).beq Schema.null
    <;> simp only [hA, hB, Bool.true_and, Bool.and_true, Bool.false_and,
      Bool.and_false, if_true, if_false]
  · exact merge_repr_comm_aux _ _ _ le_rfl (infer_normal a ha) (infer_normal b hb)
  · exact merge_repr_comm_aux _ _ _ le_rfl (infer_normal a ha) (infer_normal b hb)
  · exact merge_repr_comm_aux _ _ _ le_rfl (infer_normal a ha) (infer_normal b hb)

/-- Witness for the two-sample swap at an int and a string sample. -/
theorem claim_C1_witness :
    ((Value.int 3).valid = true ∧ (Value.str "x").valid = true)
    ∧ schema_repr (deduce_schema [Value.int 3, Value.str "x"])
      = schema_repr (deduce_schema [Value.str "x", Value.int 3]) :=
  ⟨⟨by decide, by decide⟩,
    claim_C1_two_sample_swap (Value.int 3) (Value.str "x") (by decide) (by decide)⟩

/-! ### Characterization of object merge -/

theorem mem_filter_keys (ps qs : List (String × Schema)) (k : String) :
    k ∈ (qs.filter (fun p => !(hasKeyS ps p.1))).map (fun p => p.1)
      ↔ (k ∈ qs.map (fun p => p.1) ∧ hasKeyS ps k = false) := by
  constructor
  · intro h
    rcases List.mem_map.mp h with ⟨p, hp, hpk⟩
    rcases List.mem_filter.mp hp with ⟨hmem, hflt⟩
    rw [bool_not_eq_true] at hflt
    rw [← hpk]
    exact ⟨List.mem_map.mpr ⟨p, hmem, rfl⟩, hflt⟩
  · rintro ⟨h1, h2⟩
    rcases List.mem_map.mp h1 with ⟨p, hp, hpk⟩
    refine List.mem_map.mpr ⟨p, List.mem_filter.mpr ⟨hp, ?_⟩, hpk⟩
    rw [bool_not_eq_true, hpk, h2]

/-- C3: merging two Object schemas (with the distinct-key invariant of the
Python dict payloads) yields an Object whose key set is the union of both
key sets; a shared key maps to the recursive merge of the two field
schemas; a one-sided key keeps its schema and becomes optional; and the
optional set is exactly the one-sided keys together with both inputs\x27
optional sets. -/
theorem claim_C3_object_merge (ps ps' : List (String × Schema)) (os os' : List String)
    (hnd : (ps.map (fun p => p.1)).Nodup)
    (hnd' : (ps'.map (fun p => p.1)).Nodup) :
    ∃ P O, (Schema.object ps os).merge (Schema.object ps' os') = Schema.object P O
      ∧ (∀ k, k ∈ P.map (fun p => p.1)
          ↔ (k ∈ ps.map (fun p => p.1) ∨ k ∈ ps'.map (fun p => p.1)))
      ∧ (∀ k v w, lookupS ps k = some v → lookupS ps' k = some w →
          lookupS P k = some (v.merge w))
      ∧ (∀ k v, lookupS ps k = some v → lookupS ps' k = Option.none →
          lookupS P k = some v ∧ k ∈ O)
      ∧ (∀ k w, lookupS ps k = Option.none → lookupS ps' k = some w →
          lookupS P k = some w ∧ k ∈ O)
      ∧ (∀ k, k ∈ O
          ↔ ((k ∈ ps.map (fun p => p.1) ∧ lookupS ps' k = Option.none)
            ∨ (k ∈ ps'.map (fun p => p.1) ∧ lookupS ps k = Option.none)
            ∨ k ∈ os ∨ k ∈ os')) := by
  refine ⟨sortBy (fun p q => strLe p.1 q.1)
      (mergeProps ps ps' ++ ps'.filter (fun p => !(hasKeyS ps p.1))),
    sortDedup
      ((ps.filter (fun p => !(hasKeyS ps' p.1))).map (fun p => p.1)
        ++ (ps'.filter (fun p => !(hasKeyS ps p.1))).map (fun p => p.1)
        ++ os ++ os'),
    rfl, ?_, ?_, ?_, ?_, ?_⟩
  case _ =>
    intro k
    rw [((sortBy_perm (fun p q : String × Schema => strLe p.1 q.1)
      (mergeProps ps ps' ++ ps'.filter (fun p => !(hasKeyS ps p.1)))).map
        (fun p : String × Schema => p.1)).mem_iff]
    rw [List.map_append, List.mem_append, mergeProps_keys, mem_filter_keys]
    constructor
    · rintro (h | ⟨h, _⟩)
      · exact Or.inl h
      · exact Or.inr h
    · rintro (h | h)
      · exact Or.inl h
      · by_cases hk : hasKeyS ps k = true
        · exact Or.inl ((hasKeyS_iff ps k).mp hk)
        · exact Or.inr ⟨h, Bool.not_eq_true _ ▸ hk⟩
  case _ =>
    intro k v w hv hw
    have hndP : ((sortBy (fun p q : String × Schema => strLe p.1 q.1)
        (mergeProps ps ps' ++ ps'.filter (fun p => !(hasKeyS ps p.1)))).map
          (fun p => p.1)).Nodup :=
      ((sortBy_perm (fun p q : String × Schema => strLe p.1 q.1) _).map
        (fun p : String × Schema => p.1)).nodup_iff.mpr
        (mergeResult_keys_nodup ps ps' hnd hnd')
    apply lookupS_of_mem_nodup _ hndP
    rw [(sortBy_perm (fun p q : String × Schema => strLe p.1 q.1) _).mem_iff]
    apply List.mem_append.mpr
    left
    have hmm := mergeProps_mem_of ps ps' k v (lookupS_mem ps k v hv)
    rw [hw] at hmm
    exact hmm
  case _ =>
    intro k v hv hw
    have hndP : ((sortBy (fun p q : String × Schema => strLe p.1 q.1)
        (mergeProps ps ps' ++ ps'.filter (fun p => !(hasKeyS ps p.1)))).map
          (fun p => p.1)).Nodup :=
      ((sortBy_perm (fun p q : String × Schema => strLe p.1 q.1) _).map
        (fun p : String × Schema => p.1)).nodup_iff.mpr
        (mergeResult_keys_nodup ps ps' hnd hnd')
    constructor
    · apply lookupS_of_mem_nodup _ hndP
      rw [(sortBy_perm (fun p q : String × Schema => strLe p.1 q.1) _).mem_iff]
      apply List.mem_append.mpr
      left
      have hmm := mergeProps_mem_of ps ps' k v (lookupS_mem ps k v hv)
      rw [hw] at hmm
      exact hmm
    · rw [mem_sortDedup, List.mem_append, List.mem_append, List.mem_append]
      left; left; left
      rw [mem_filter_keys]
      exact ⟨List.mem_map.mpr ⟨(k, v), lookupS_mem ps k v hv, rfl⟩,
        (hasKeyS_false_iff ps' k).mpr hw⟩
  case _ =>
    intro k w hv hw
    have hndP : ((sortBy (fun p q : String × Schema => strLe p.1 q.1)
        (mergeProps ps ps' ++ ps'.filter (fun p => !(hasKeyS ps p.1)))).map
          (fun p => p.1)).Nodup :=
      ((sortBy_perm (fun p q : String × Schema => strLe p.1 q.1) _).map
        (fun p : String × Schema => p.1)).nodup_iff.mpr
        (mergeResult_keys_nodup ps ps' hnd hnd')
    constructor
    · apply lookupS_of_mem_nodup _ hndP
      rw [(sortBy_perm (fun p q : String × Schema => strLe p.1 q.1) _).mem_iff]
      apply List.mem_append.mpr
      right
      apply List.mem_filter.mpr
      refine ⟨lookupS_mem ps' k w hw, ?_⟩
      rw [bool_not_eq_true, (hasKeyS_false_iff ps k).mpr hv]
    · rw [mem_sortDedup, List.mem_append, List.mem_append, List.mem_append]
      left; left; right
      rw [mem_filter_keys]
      exact ⟨List.mem_map.mpr ⟨(k, w), lookupS_mem ps' k w hw, rfl⟩,
        (hasKeyS_false_iff ps k).mpr hv⟩
  case _ =>
    intro k
    rw [mem_sortDedup, List.mem_append, List.mem_append, List.mem_append,
      mem_filter_keys, mem_filter_keys, hasKeyS_false_iff, hasKeyS_false_iff]
    tauto

/-- Witness for C3 at two disjoint singleton objects. -/
theorem claim_C3_witness :
    ((([("a", Schema.int)] : List (String × Schema)).map (fun p => p.1)).Nodup
      ∧ (([("b", Schema.float)] : List (String × Schema)).map (fun p => p.1)).Nodup)
    ∧ (∃ P O, (Schema.object [("a", Schema.int)] ["a"]).merge
          (Schema.object [("b", Schema.float)] []) = Schema.object P O
        ∧ (∀ k, k ∈ P.map (fun p => p.1)
            ↔ (k ∈ ([("a", Schema.int)] : List (String × Schema)).map (fun p => p.1)
              ∨ k ∈ ([("b", Schema.float)] : List (String × Schema)).map (fun p => p.1)))
        ∧ (∀ k v w, lookupS [("a", Schema.int)] k = some v →
            lookupS [("b", Schema.float)] k = some w →
            lookupS P k = some (v.merge w))
        ∧ (∀ k v, lookupS [("a", Schema.int)] k = some v →
            lookupS [("b", Schema.float)] k = Option.none →
            lookupS P k = some v ∧ k ∈ O)
        ∧ (∀ k w, lookupS [("a", Schema.int)] k = Option.none →
            lookupS [("b", Schema.float)] k = some w →
            lookupS P k = some w ∧ k ∈ O)
        ∧ (∀ k, k ∈ O
            ↔ ((k ∈ ([("a", Schema.int)] : List (String × Schema)).map (fun p => p.1)
                ∧ lookupS [("b", Schema.float)] k = Option.none)
              ∨ (k ∈ ([("b", Schema.float)] : List (String × Schema)).map (fun p => p.1)
                ∧ lookupS [("a", Schema.int)] k = Option.none)
              ∨ k ∈ ["a"] ∨ k ∈ ([] : List String)))) :=
  ⟨⟨by decide, by decide⟩,
    claim_C3_object_merge [("a", Schema.int)] [("b", Schema.float)] ["a"] []
      (by decide) (by decide)⟩
